import Mathlib

/-!
Verification of the HAL/S semantic analysis core (hals_semantic_parser.py).

The program text is modelled as a `List Char`.  All recognizers of the
source are translated as executable functions over character lists; the
regex patterns of the source are small enough that each is translated as a
deterministic matcher with the same semantics as Python `re` on them
(leftmost scan, greedy character classes, ordered alternation with the
two-branch fallback for the optional groups).  The model is faithful on
ASCII text: the character classes `[A-Z_]`, `[A-Z0-9_]` (with IGNORECASE),
`\s`, `\w` and `str.upper()` are taken with their ASCII meaning.
-/

set_option maxHeartbeats 4000000
set_option maxRecDepth 10000

namespace HalsLsp

/-- Program texts are lists of characters. -/
abbrev Str := List Char

/-- Python `str.upper()` on ASCII text (`Char.toUpper` maps `a`-`z` only). -/
def pyUpper (s : Str) : Str := s.map Char.toUpper

/-- Regex word character `\w` for the `\b` boundary: `[A-Za-z0-9_]` (ASCII). -/
def pyWordChar (c : Char) : Bool :=
  ('A' ≤ c && c ≤ 'Z') || ('a' ≤ c && c ≤ 'z') || ('0' ≤ c && c ≤ '9') || c == '_'

/-- First character of the identifier class `[A-Z_]` under IGNORECASE. -/
def pyIdentStart (c : Char) : Bool :=
  ('A' ≤ c && c ≤ 'Z') || ('a' ≤ c && c ≤ 'z') || c == '_'

/-- Regex digit class `\d` (ASCII). -/
def pyDigit (c : Char) : Bool := '0' ≤ c && c ≤ '9'

/-- Regex whitespace class `\s` (ASCII): space, tab, newline, CR, VT, FF. -/
def pySpace (c : Char) : Bool :=
  c == ' ' || c == '\t' || c == '\n' || c == '\r' || c == '\x0b' || c == '\x0c'

/-- Python `text.split(sep)` for a one-character separator. -/
def pySplitOnChar (sep : Char) : Str → List Str
  | [] => [[]]
  | c :: rest =>
    if c = sep then [] :: pySplitOnChar sep rest
    else
      match pySplitOnChar sep rest with
      | [] => [[c]]
      | l :: ls => (c :: l) :: ls

/-- Python `text.split` on newline, as used by `parse` and the preprocessor. -/
def splitNl (t : Str) : List Str := pySplitOnChar '\n' t

/-- Python newline join of a list of lines. -/
def joinNl : List Str → Str
  | [] => []
  | [l] => l
  | l :: ls => l ++ '\n' :: joinNl ls

/-- Python `str.strip()` (strip `\s` characters from both ends). -/
def pyStrip (s : Str) : Str :=
  ((s.dropWhile pySpace).reverse.dropWhile pySpace).reverse

/-- Python `s.startswith(pre)`. -/
def pyStartsWith (s pre : Str) : Bool := decide (s.take pre.length = pre)

/-- Decimal rendering of a natural number, for the generated doc strings. -/
def natToStr (n : Nat) : Str := (toString n).data

/-- Index of the last newline of a list, modelling `str.rfind` in
`_find_position`. -/
def lastNlIdx : Str → Option Nat
  | [] => none
  | c :: rest =>
    match lastNlIdx rest with
    | some i => some (i + 1)
    | none => if c = '\n' then some 0 else none

/-- `HALSParser._find_position`: character offset to (line, column) against
the text the offset was found in. -/
def findPosition (cs : Str) (p : Nat) : Nat × Nat :=
  let pre := cs.take p
  let line := pre.count '\n'
  match lastNlIdx pre with
  | some i => (line, p - i - 1)
  | none => (line, p)

/-! ### A generic finditer-style scanner

`re.finditer` tries the pattern at every position of the text, from left to
right; on a match it continues immediately after the matched span (for an
empty match it advances one position).  A matcher receives the previous
character (for the leading `\b` word boundary) and the remaining text, and
returns the consumed length together with the captured payload. -/

/-- Word-boundary test for a `\b` preceding a word character: the previous
character must be absent or not a word character. -/
def atBoundary : Option Char → Bool
  | none => true
  | some c => !pyWordChar c

/-- The successful attempts of a matcher at every position of the text
(the end-of-text position included), as `(start, length, payload)` triples;
`prev` carries the previous character for the `\b` boundary.  A try's
success does not depend on the scan state, so finditer's non-overlap rule
can be applied afterwards by `selectMatches`. -/
def allTries {α : Type} (tryM : Option Char → Str → Option (Nat × α)) :
    Option Char → Nat → Str → List (Nat × Nat × α)
  | prev, pos, [] =>
    match tryM prev [] with
    | some (n, a) => [(pos, n, a)]
    | none => []
  | prev, pos, c :: rest =>
    (match tryM prev (c :: rest) with
     | some (n, a) => [(pos, n, a)]
     | none => []) ++ allTries tryM (some c) (pos + 1) rest

/-- finditer's non-overlap rule: keep an attempt only at or beyond the scan
position, which then jumps to the end of the kept match (one past its start
for an empty match). -/
def selectMatches {α : Type} :
    Nat → List (Nat × Nat × α) → List (Nat × Nat × α)
  | _, [] => []
  | lo, m :: ms =>
    if m.1 < lo then selectMatches lo ms
    else m :: selectMatches (m.1 + max m.2.1 1) ms

/-- Wrap a plain matcher (payload, rest of text) with the leading `\b`
boundary check and consumed-length bookkeeping. -/
def wrapTry {α : Type} (m : Str → Option (α × Str)) (prev : Option Char)
    (cs : Str) : Option (Nat × α) :=
  if atBoundary prev then
    match m cs with
    | some (a, rest) => some (cs.length - rest.length, a)
    | none => none
  else none

/-- All matches of a `\b`-anchored matcher over a whole text, with Python
finditer semantics. -/
def scanP {α : Type} (m : Str → Option (α × Str)) (cs : Str) :
    List (Nat × Nat × α) :=
  selectMatches 0 (allTries (wrapTry m) none 0 cs)

/-! ### Matcher building blocks -/

/-- Greedy `\s*`. -/
def dropSpaces (s : Str) : Str := s.dropWhile pySpace

/-- A single literal character. -/
def mChar (x : Char) : Str → Option Str
  | [] => none
  | c :: rest => if c = x then some rest else none

/-- A case-insensitive literal (the literal is given in upper case). -/
def mLitCI : Str → Str → Option Str
  | [], s => some s
  | _ :: _, [] => none
  | l :: ls, c :: rest => if c.toUpper = l then mLitCI ls rest else none

/-- The identifier group `([A-Z_][A-Z0-9_]*)` (IGNORECASE), greedy.  None of
the source patterns can succeed with a shorter-than-maximal identifier (the
next pattern element is always `\s`, `:` or a trailing `\b`, none of which
matches a word character), so the greedy run is exact. -/
def mIdent : Str → Option (Str × Str)
  | [] => none
  | c :: rest =>
    if pyIdentStart c then
      some (c :: rest.takeWhile pyWordChar, rest.dropWhile pyWordChar)
    else none

/-- `\s+` (greedy; the following pattern element never matches whitespace). -/
def mSpaces1 : Str → Option Str
  | [] => none
  | c :: rest => if pySpace c then some (dropSpaces rest) else none

/-- `\d+`, greedy. -/
def mDigits (s : Str) : Option (Str × Str) :=
  let d := s.takeWhile pyDigit
  if d = [] then none else some (d, s.dropWhile pyDigit)

/-- `\(([^)]*)\)`: parenthesis, greedy run of non-`)` characters, `)`. -/
def mParenGroup (cs : Str) : Option (Str × Str) := do
  let r1 ← mChar '(' cs
  let content := r1.takeWhile (fun c => c ≠ ')')
  let r2 ← mChar ')' (r1.dropWhile (fun c => c ≠ ')'))
  pure (content, r2)

/-- Ordered alternation of case-insensitive literals, returning the raw
matched text.  The alternatives used in the source are pairwise
non-overlapping (no two can match at the same position), so committing to
the first successful one is exact. -/
def mTypeAlt (alts : List Str) (cs : Str) : Option (Str × Str) :=
  match alts with
  | [] => none
  | t :: ts =>
    match mLitCI t cs with
    | some rest => some (cs.take t.length, rest)
    | none => mTypeAlt ts cs

/-! ### The recognizer patterns of the source, one matcher each -/

/-- The type alternation of `_parse_functions`:
`(INTEGER|SCALAR|VECTOR|MATRIX|BOOLEAN|CHARACTER|BIT)`. -/
def funTypes : List Str :=
  ["INTEGER", "SCALAR", "VECTOR", "MATRIX", "BOOLEAN", "CHARACTER", "BIT"].map
    String.data

/-- The type alternation of the simple-declaration pattern (with EVENT). -/
def declTypes8 : List Str := funTypes ++ [("EVENT").data]

/-- `([A-Z_][A-Z0-9_]*)\s*:\s*LIT\s*;` — shared by the PROGRAM, TASK and
COMPOOL patterns. -/
def mColonUnit (lit : Str) (cs : Str) : Option (Str × Str) := do
  let (name, r1) ← mIdent cs
  let r2 ← mChar ':' (dropSpaces r1)
  let r3 ← mLitCI lit (dropSpaces r2)
  let r4 ← mChar ';' (dropSpaces r3)
  pure (name, r4)

/-- `([A-Z_][A-Z0-9_]*)\s*:\s*PROCEDURE\s*(?:\(([^)]*)\))?\s*;`.  The
optional group is tried first together with the pattern tail; on failure the
group is skipped, exactly as the regex engine backtracks. -/
def mProcedure (cs : Str) : Option ((Str × Option Str) × Str) := do
  let (name, r1) ← mIdent cs
  let r2 ← mChar ':' (dropSpaces r1)
  let r3 ← mLitCI (("PROCEDURE").data) (dropSpaces r2)
  let r4 := dropSpaces r3
  let withGroup : Option ((Str × Option Str) × Str) := do
    let (ps, r5) ← mParenGroup r4
    let r6 ← mChar ';' (dropSpaces r5)
    pure ((name, some ps), r6)
  match withGroup with
  | some res => pure res
  | none => do
    let r6 ← mChar ';' (dropSpaces r4)
    pure ((name, none), r6)

/-- The tail `FUNCTION\s*(?:\(([^)]*)\))?\s*;` of the function pattern,
run after an optional return type capture `rt`. -/
def mFunctionTail (name : Str) (rt : Option Str) (r : Str) :
    Option ((Str × Option Str × Option Str) × Str) := do
  let r4 ← mLitCI (("FUNCTION").data) (dropSpaces r)
  let r5 := dropSpaces r4
  let withGroup : Option ((Str × Option Str × Option Str) × Str) := do
    let (ps, r6) ← mParenGroup r5
    let r7 ← mChar ';' (dropSpaces r6)
    pure ((name, rt, some ps), r7)
  match withGroup with
  | some res => pure res
  | none => do
    let r7 ← mChar ';' (dropSpaces r5)
    pure ((name, rt, none), r7)

/-- `([A-Z_][A-Z0-9_]*)\s*:\s*(TYPE)?\s*FUNCTION\s*(?:\(([^)]*)\))?\s*;`.
If the optional type alternation matches but the tail fails, the engine
retries without the type (no alternative can also match there, and
`FUNCTION` does not start with any of the type literals). -/
def mFunction (cs : Str) : Option ((Str × Option Str × Option Str) × Str) := do
  let (name, r1) ← mIdent cs
  let r2 ← mChar ':' (dropSpaces r1)
  let r3 := dropSpaces r2
  match mTypeAlt funTypes r3 with
  | some (t, r4) =>
    match mFunctionTail name (some t) r4 with
    | some res => some res
    | none => mFunctionTail name none r3
  | none => mFunctionTail name none r3

/-- `\bDECLARE\s+NAME\s+` — the shared head of the five DECLARE patterns. -/
def mDeclareHead (cs : Str) : Option (Str × Str) := do
  let r1 ← mLitCI (("DECLARE").data) cs
  let r2 ← mSpaces1 r1
  let (name, r3) ← mIdent r2
  let r4 ← mSpaces1 r3
  pure (name, r4)

/-- `DECLARE\s+NAME\s+(TYPE8)\s*(?:INITIAL\s*\([^)]*\))?\s*;`. -/
def mScalarDecl (cs : Str) : Option ((Str × Str) × Str) := do
  let (name, r4) ← mDeclareHead cs
  let (ty, r5) ← mTypeAlt declTypes8 r4
  let r6 := dropSpaces r5
  let withGroup : Option ((Str × Str) × Str) := do
    let r7 ← mLitCI (("INITIAL").data) r6
    let (_, r8) ← mParenGroup (dropSpaces r7)
    let r9 ← mChar ';' (dropSpaces r8)
    pure ((name, ty), r9)
  match withGroup with
  | some res => pure res
  | none => do
    let r7 ← mChar ';' r6
    pure ((name, ty), r7)

/-- `DECLARE\s+NAME\s+ARRAY\s*\(([^)]+)\)\s+(TYPE7)\s*;`. -/
def mArrayDecl (cs : Str) : Option ((Str × Str × Str) × Str) := do
  let (name, r4) ← mDeclareHead cs
  let r5 ← mLitCI (("ARRAY").data) r4
  let (dims, r6) ← mParenGroup (dropSpaces r5)
  if dims = [] then none else do
  let r7 ← mSpaces1 r6
  let (ty, r8) ← mTypeAlt funTypes r7
  let r9 ← mChar ';' (dropSpaces r8)
  pure ((name, dims, ty), r9)

/-- `DECLARE\s+NAME\s+CONSTANT\s*\(([^)]+)\)\s*;`. -/
def mConstDecl (cs : Str) : Option ((Str × Str) × Str) := do
  let (name, r4) ← mDeclareHead cs
  let r5 ← mLitCI (("CONSTANT").data) r4
  let (value, r6) ← mParenGroup (dropSpaces r5)
  if value = [] then none else do
  let r7 ← mChar ';' (dropSpaces r6)
  pure ((name, value), r7)

/-- `DECLARE\s+NAME\s+VECTOR\s*\((\d+)\)\s*;`. -/
def mVectorDecl (cs : Str) : Option ((Str × Str) × Str) := do
  let (name, r4) ← mDeclareHead cs
  let r5 ← mLitCI (("VECTOR").data) r4
  let r6 ← mChar '(' (dropSpaces r5)
  let (size, r7) ← mDigits r6
  let r8 ← mChar ')' r7
  let r9 ← mChar ';' (dropSpaces r8)
  pure ((name, size), r9)

/-- `DECLARE\s+NAME\s+MATRIX\s*\((\d+)\s*,\s*(\d+)\)\s*;`. -/
def mMatrixDecl (cs : Str) : Option ((Str × Str × Str) × Str) := do
  let (name, r4) ← mDeclareHead cs
  let r5 ← mLitCI (("MATRIX").data) r4
  let r6 ← mChar '(' (dropSpaces r5)
  let (rows, r7) ← mDigits r6
  let r8 ← mChar ',' (dropSpaces r7)
  let (cols, r9) ← mDigits (dropSpaces r8)
  let r10 ← mChar ')' r9
  let r11 ← mChar ';' (dropSpaces r10)
  pure ((name, rows, cols), r11)

/-- `DECLARE\s+NAME\s+STRUCTURE\s*;`. -/
def mStructDecl (cs : Str) : Option (Str × Str) := do
  let (name, r4) ← mDeclareHead cs
  let r5 ← mLitCI (("STRUCTURE").data) r4
  let r6 ← mChar ';' (dropSpaces r5)
  pure (name, r6)

/-- `REPLACE\s+NAME\s+BY\s+"([^"]+)"\s*;`. -/
def mReplaceDecl (cs : Str) : Option ((Str × Str) × Str) := do
  let r1 ← mLitCI (("REPLACE").data) cs
  let r2 ← mSpaces1 r1
  let (name, r3) ← mIdent r2
  let r4 ← mSpaces1 r3
  let r5 ← mLitCI (("BY").data) r4
  let r6 ← mSpaces1 r5
  let r7 ← mChar '"' r6
  let body := r7.takeWhile (fun c => c ≠ '"')
  if body = [] then none else do
  let r8 ← mChar '"' (r7.dropWhile (fun c => c ≠ '"'))
  let r9 ← mChar ';' (dropSpaces r8)
  pure ((name, body), r9)

/-- `([A-Z_][A-Z0-9_]*)\s*:` — the label pattern. -/
def mLabel (cs : Str) : Option (Str × Str) := do
  let (name, r1) ← mIdent cs
  let r2 ← mChar ':' (dropSpaces r1)
  pure (name, r2)

/-- `\b([A-Z_][A-Z0-9_]*)\b` — the reference / token pattern.  The trailing
`\b` holds automatically at the end of the greedy run. -/
def mRef (cs : Str) : Option (Str × Str) := mIdent cs

/-! ### Data model -/

/-- `SymbolKind` of the source.  `variable` and `structure` are Lean
keywords, hence the `K` suffix on those two constructor names; the modelled
string values are unchanged. -/
inductive SymbolKind where
  | program | procedure | function | task | compool
  | variableK | constant | structureK | label | parameter | replace
deriving DecidableEq

/-- `Symbol` dataclass of the source. -/
structure Symbol where
  name : Str
  kind : SymbolKind
  data_type : Str
  line : Nat
  column : Nat
  end_line : Nat := 0
  end_column : Nat := 0
  scope : Str := ("global").data
  documentation : Str := []
  parameters : List Str := []
  dimensions : List Str := []
deriving DecidableEq

/-- `Reference` dataclass of the source. -/
structure Reference where
  name : Str
  line : Nat
  column : Nat
  end_column : Nat := 0
  context : Str := []
deriving DecidableEq

/-- `Diagnostic` dataclass of the source. -/
structure Diagnostic where
  line : Nat
  column : Nat
  end_column : Nat
  message : Str
  severity : Str := ("error").data
deriving DecidableEq

/-- The `HALSParser.KEYWORDS` set. -/
def KEYWORDS : List Str :=
  (["PROGRAM", "PROCEDURE", "FUNCTION", "TASK", "COMPOOL", "UPDATE",
    "CLOSE", "RETURN",
    "DECLARE", "CONSTANT", "INITIAL", "STATIC", "AUTOMATIC",
    "TEMPORARY", "DENSE", "ALIGNED", "RIGID", "REMOTE", "ACCESS",
    "ASSIGN", "NAME", "LOCK", "EXCLUSIVE", "LATCHED", "REPLACE",
    "STRUCTURE", "ARRAY",
    "INTEGER", "SCALAR", "VECTOR", "MATRIX", "BOOLEAN", "CHARACTER",
    "BIT", "EVENT", "SINGLE", "DOUBLE",
    "IF", "THEN", "ELSE", "DO", "END", "FOR", "TO", "BY", "WHILE",
    "UNTIL", "REPEAT", "EXIT", "GO", "GOTO", "CASE",
    "SCHEDULE", "WAIT", "SIGNAL", "PRIORITY", "TERMINATE", "CANCEL",
    "SET", "RESET", "ON", "OFF", "ERROR", "DEPENDENT", "IGNORE",
    "READ", "READALL", "WRITE", "FILE",
    "NOT", "AND", "OR", "CAT", "MOD", "TRUE", "FALSE",
    "ABS", "CEILING", "FLOOR", "TRUNCATE", "ROUND", "ODD", "SIGN",
    "MAX", "MIN", "SUM", "PROD", "SHL", "SHR", "SIZE", "LENGTH",
    "INDEX", "MIDVAL", "RANDOM", "RANDOMG", "DATE", "RUNTIME",
    "CLOCKTIME", "PRIO", "NEXTIME",
    "SIN", "COS", "TAN", "ARCSIN", "ARCCOS", "ARCTAN", "ARCTAN2",
    "SINH", "COSH", "TANH", "EXP", "LOG", "SQRT",
    "TRANSPOSE", "TRACE", "DET", "INVERSE", "IDENTITY",
    "UNIT", "ABVAL", "DOT", "CROSS"] : List String).map String.data

/-! ### Preprocessing -/

/-- The loop body of `HALSParser._preprocess_multiline`: non-empty lines
are classified by their first character (upper-cased); `E`/`S` lines are
dropped, `M` lines lose the marker, `C` lines become a block comment, and
everything else (including empty lines) passes through. -/
def processLines : List Str → List Str
  | [] => []
  | [] :: ls => [] :: processLines ls
  | (c :: rest) :: ls =>
    let fc := c.toUpper
    if fc = 'E' || fc = 'S' then processLines ls
    else if fc = 'M' then rest :: processLines ls
    else if fc = 'C' then ('/' :: '*' :: rest ++ ['*', '/']) :: processLines ls
    else (c :: rest) :: processLines ls

/-- `HALSParser._preprocess_multiline`. -/
def preprocessMultiline (t : Str) : Str := joinNl (processLines (splitNl t))

/-- Suffix after the first `*/`, if any; models where the lazy `.*?` of
`re.sub(r'/\*.*?\*/', '', text, flags=DOTALL)` stops. -/
def findCloseSplit : Str → Option Str
  | [] => none
  | [_] => none
  | c :: d :: rest =>
    if c = '*' ∧ d = '/' then some rest else findCloseSplit (d :: rest)

/-- Fuel-indexed core of `_remove_comments`; the fuel only makes the
recursion structural (each step shortens the text, so `cs.length` steps
always suffice and the fuel-0 arm is reached only on the empty text). -/
def removeCommentsFuel : Nat → Str → Str
  | 0, cs => cs
  | fuel + 1, cs =>
    match cs with
    | [] => []
    | [c] => [c]
    | c :: d :: rest =>
      if c = '/' ∧ d = '*' then
        match findCloseSplit rest with
        | some after => removeCommentsFuel fuel after
        | none => c :: d :: rest
      else c :: removeCommentsFuel fuel (d :: rest)

/-- `HALSParser._remove_comments`:
`re.sub(r'/\*.*?\*/', '', text, flags=re.DOTALL)`.  `re.sub` deletes each
leftmost match, the lazy `.*?` stopping at the nearest following `*/`, and
resumes scanning after the deleted span; an opener with no closer anywhere
later is left in place (and then nothing later can open a comment either,
since any later closer would also close the first opener). -/
def removeComments (cs : Str) : Str := removeCommentsFuel cs.length cs

/-! ### Extraction passes

Each pass is the list of `(canonical name, Symbol)` pairs its `finditer`
loop produces, in match order; running a pass inserts them left to right
into the table. -/

/-- `[p.strip() for p in params_text.split(',')] if params_text else []`. -/
def mkParams (ptext : Option Str) : List Str :=
  match ptext with
  | none => []
  | some s => if s = [] then [] else (pySplitOnChar ',' s).map pyStrip

/-- `HALSParser._parse_programs` match list. -/
def programEntries (t : Str) : List (Str × Symbol) :=
  (scanP (mColonUnit (("PROGRAM").data)) t).map (fun r =>
    let lc := findPosition t r.1
    let nameU := pyUpper r.2.2
    (nameU, { name := nameU, kind := .program, data_type := ("PROGRAM").data,
              line := lc.1, column := lc.2,
              documentation := ("HAL/S Program unit").data }))

/-- `HALSParser._parse_procedures` match list. -/
def procedureEntries (t : Str) : List (Str × Symbol) :=
  (scanP mProcedure t).map (fun r =>
    let lc := findPosition t r.1
    let nameU := pyUpper r.2.2.1
    let params := mkParams r.2.2.2
    (nameU, { name := nameU, kind := .procedure,
              data_type := ("PROCEDURE").data,
              line := lc.1, column := lc.2, parameters := params,
              documentation :=
                if params = [] then ("Procedure").data
                else ("Procedure with ").data ++ natToStr params.length ++
                  (" parameters").data }))

/-- `HALSParser._parse_functions` match list. -/
def functionEntries (t : Str) : List (Str × Symbol) :=
  (scanP mFunction t).map (fun r =>
    let lc := findPosition t r.1
    let nameU := pyUpper r.2.2.1
    let rt : Str := match r.2.2.2.1 with
      | none => ("SCALAR").data
      | some s => s
    let params := mkParams r.2.2.2.2
    (nameU, { name := nameU, kind := .function,
              data_type := pyUpper rt ++ (" FUNCTION").data,
              line := lc.1, column := lc.2, parameters := params,
              documentation := ("Function returning ").data ++ pyUpper rt }))

/-- `HALSParser._parse_tasks` match list. -/
def taskEntries (t : Str) : List (Str × Symbol) :=
  (scanP (mColonUnit (("TASK").data)) t).map (fun r =>
    let lc := findPosition t r.1
    let nameU := pyUpper r.2.2
    (nameU, { name := nameU, kind := .task, data_type := ("TASK").data,
              line := lc.1, column := lc.2,
              documentation := ("Real-time task (schedulable process)").data }))

/-- `HALSParser._parse_compools` match list. -/
def compoolEntries (t : Str) : List (Str × Symbol) :=
  (scanP (mColonUnit (("COMPOOL").data)) t).map (fun r =>
    let lc := findPosition t r.1
    let nameU := pyUpper r.2.2
    (nameU, { name := nameU, kind := .compool, data_type := ("COMPOOL").data,
              line := lc.1, column := lc.2,
              documentation := ("Communication pool (shared data)").data }))

/-- First `finditer` loop of `HALSParser._parse_declares` (simple typed
declarations). -/
def scalarEntries (t : Str) : List (Str × Symbol) :=
  (scanP mScalarDecl t).map (fun r =>
    let lc := findPosition t r.1
    let nameU := pyUpper r.2.2.1
    let ty := pyUpper r.2.2.2
    (nameU, { name := nameU, kind := .variableK, data_type := ty,
              line := lc.1, column := lc.2,
              documentation := ty ++ (" variable").data }))

/-- Second `finditer` loop of `_parse_declares` (array declarations). -/
def arrayEntries (t : Str) : List (Str × Symbol) :=
  (scanP mArrayDecl t).map (fun r =>
    let lc := findPosition t r.1
    let nameU := pyUpper r.2.2.1
    let dims := r.2.2.2.1
    let ty := pyUpper r.2.2.2.2
    (nameU, { name := nameU, kind := .variableK,
              data_type := ("ARRAY(").data ++ dims ++ (") ").data ++ ty,
              line := lc.1, column := lc.2,
              dimensions := (pySplitOnChar ',' dims).map pyStrip,
              documentation := ("Array of ").data ++ ty ++
                (" with dimensions (").data ++ dims ++ (")").data }))

/-- Third `finditer` loop of `_parse_declares` (constants). -/
def constantEntries (t : Str) : List (Str × Symbol) :=
  (scanP mConstDecl t).map (fun r =>
    let lc := findPosition t r.1
    let nameU := pyUpper r.2.2.1
    let value := r.2.2.2
    (nameU, { name := nameU, kind := .constant, data_type := ("CONSTANT").data,
              line := lc.1, column := lc.2,
              documentation := ("Constant = ").data ++ value }))

/-- Fourth `finditer` loop of `_parse_declares` (sized vectors). -/
def vectorEntries (t : Str) : List (Str × Symbol) :=
  (scanP mVectorDecl t).map (fun r =>
    let lc := findPosition t r.1
    let nameU := pyUpper r.2.2.1
    let size := r.2.2.2
    (nameU, { name := nameU, kind := .variableK,
              data_type := ("VECTOR(").data ++ size ++ (")").data,
              line := lc.1, column := lc.2, dimensions := [size],
              documentation := ("Vector of ").data ++ size ++
                (" elements").data }))

/-- Fifth `finditer` loop of `_parse_declares` (sized matrices). -/
def matrixEntries (t : Str) : List (Str × Symbol) :=
  (scanP mMatrixDecl t).map (fun r =>
    let lc := findPosition t r.1
    let nameU := pyUpper r.2.2.1
    let rows := r.2.2.2.1
    let cols := r.2.2.2.2
    (nameU, { name := nameU, kind := .variableK,
              data_type := ("MATRIX(").data ++ rows ++ (",").data ++ cols ++
                (")").data,
              line := lc.1, column := lc.2, dimensions := [rows, cols],
              documentation := ("Matrix of ").data ++ rows ++ ("x").data ++
                cols ++ (" elements").data }))

/-- `HALSParser._parse_structures` match list. -/
def structEntries (t : Str) : List (Str × Symbol) :=
  (scanP mStructDecl t).map (fun r =>
    let lc := findPosition t r.1
    let nameU := pyUpper r.2.2
    (nameU, { name := nameU, kind := .structureK,
              data_type := ("STRUCTURE").data,
              line := lc.1, column := lc.2,
              documentation := ("Structure type").data }))

/-- `HALSParser._parse_replaces` match list. -/
def replaceEntries (t : Str) : List (Str × Symbol) :=
  (scanP mReplaceDecl t).map (fun r =>
    let lc := findPosition t r.1
    let nameU := pyUpper r.2.2.1
    (nameU, { name := nameU, kind := .replace, data_type := ("REPLACE").data,
              line := lc.1, column := lc.2,
              documentation := ("Macro expanding to: ").data ++ r.2.2.2 }))

/-- The unit keywords checked by the label lookahead. -/
def unitKeywords : List Str :=
  (["PROGRAM", "PROCEDURE", "FUNCTION", "TASK", "COMPOOL"] : List String).map
    String.data

/-- `HALSParser._parse_labels` match list: matches of the label pattern
whose 20-character lookahead (stripped, upper-cased) does not start with a
unit keyword.  The `already in symbols` skip belongs to insertion, below. -/
def labelEntries (t : Str) : List (Str × Symbol) :=
  (scanP mLabel t).filterMap (fun r =>
    let after := pyUpper (pyStrip ((t.drop (r.1 + r.2.1)).take 20))
    if unitKeywords.any (fun u => pyStartsWith after u) then none
    else
      let lc := findPosition t r.1
      let nameU := pyUpper r.2.2
      some (nameU, { name := nameU, kind := .label, data_type := ("LABEL").data,
                     line := lc.1, column := lc.2,
                     documentation := ("Statement label (GO TO target)").data }))

/-! ### The symbol table

Python dicts keep insertion order, and assigning to an existing key keeps
the key at its original position.  The table is therefore an association
list where overwriting replaces in place and fresh keys go to the end. -/

/-- `self.symbols[k] = v`. -/
def insertSym : List (Str × Symbol) → Str → Symbol → List (Str × Symbol)
  | [], k, v => [(k, v)]
  | (k1, v1) :: rest, k, v =>
    if k1 = k then (k, v) :: rest else (k1, v1) :: insertSym rest k v

/-- `self.symbols.get(k)` / `self.symbols[k]`. -/
def lookupSym : List (Str × Symbol) → Str → Option Symbol
  | [], _ => none
  | (k1, v1) :: rest, k => if k1 = k then some v1 else lookupSym rest k

/-- `k in self.symbols`. -/
def containsSym (tbl : List (Str × Symbol)) (k : Str) : Bool :=
  (lookupSym tbl k).isSome

/-- Run an unconditional pass: insert all its entries left to right. -/
def applyEntries (tbl : List (Str × Symbol)) (es : List (Str × Symbol)) :
    List (Str × Symbol) :=
  es.foldl (fun tb e => insertSym tb e.1 e.2) tbl

/-- Insertion step of the label pass: skip names already present. -/
def insertIfAbsent (tbl : List (Str × Symbol)) (e : Str × Symbol) :
    List (Str × Symbol) :=
  if containsSym tbl e.1 then tbl else tbl ++ [e]

/-- The twelve unconditional passes, in the order `parse` runs them. -/
def nonLabelEntries (t : Str) : List (List (Str × Symbol)) :=
  [programEntries t, procedureEntries t, functionEntries t, taskEntries t,
   compoolEntries t, scalarEntries t, arrayEntries t, constantEntries t,
   vectorEntries t, matrixEntries t, structEntries t, replaceEntries t]

/-- All thirteen passes; the label pass is last. -/
def passEntries (t : Str) : List (List (Str × Symbol)) :=
  nonLabelEntries t ++ [labelEntries t]

/-- The symbol table produced by the extraction passes of `parse` on the
cleaned text. -/
def buildSymbols (t : Str) : List (Str × Symbol) :=
  (labelEntries t).foldl insertIfAbsent
    ((nonLabelEntries t).foldl applyEntries [])

/-! ### Parser state and `parse` -/

/-- The mutable fields of a `HALSParser` instance. -/
structure ParserState where
  symbols : List (Str × Symbol)
  references : List Reference
  diagnostics : List Diagnostic
  lines : List Str
  current_scope : Str
  scope_stack : List Str
deriving DecidableEq

/-- `HALSParser.__init__`. -/
def initState : ParserState :=
  { symbols := [], references := [], diagnostics := [], lines := [],
    current_scope := ("global").data, scope_stack := [("global").data] }

/-- `HALSParser._parse_references`: every identifier occurrence whose
upper-cased form is not a keyword. -/
def parseReferences (t : Str) : List Reference :=
  (scanP mRef t).filterMap (fun r =>
    if pyUpper r.2.2 ∈ KEYWORDS then none
    else
      let lc := findPosition t r.1
      some { name := pyUpper r.2.2, line := lc.1, column := lc.2,
             end_column := lc.2 + r.2.2.length })

/-- The normalized text: continuation unfolding followed by comment
stripping — the text all extraction passes scan. -/
def normalizedOf (t : Str) : Str := removeComments (preprocessMultiline t)

/-- `HALSParser.parse`.  Every field of the state is rebuilt from the text;
the previous state is never read. -/
def parse (_st : ParserState) (text : Str) : ParserState :=
  let cleaned := normalizedOf text
  { symbols := buildSymbols cleaned
    references := parseReferences cleaned
    diagnostics := []
    lines := splitNl text
    current_scope := ("global").data
    scope_stack := [("global").data] }

/-! ### Query engine -/

/-- Hover/definition/references result of the token search on one line:
the first token whose span contains the column (both ends inclusive, as in
`match.start() <= column <= match.end()`). -/
def tokenAt (lt : Str) (col : Nat) : Option Str :=
  ((scanP mRef lt).find? (fun m =>
      decide (m.1 ≤ col) && decide (col ≤ m.1 + m.2.1))).map (fun m => m.2.2)

/-- `HALSParser.get_hover`. -/
def get_hover (st : ParserState) (line col : Nat) : Option Str :=
  match st.lines.get? line with
  | none => none
  | some lt =>
    match tokenAt lt col with
    | none => none
    | some w =>
      let wU := pyUpper w
      if wU ∈ KEYWORDS then
        some (("**").data ++ wU ++ ("**\n\nHAL/S keyword").data)
      else
        match lookupSym st.symbols wU with
        | some s => some (("**").data ++ s.name ++ ("**: ").data ++
            s.data_type ++ ("\n\n").data ++ s.documentation)
        | none => none

/-- Result record of `get_definition`. -/
structure DefnLoc where
  line : Nat
  column : Nat
  name : Str
deriving DecidableEq

/-- `HALSParser.get_definition`. -/
def get_definition (st : ParserState) (line col : Nat) : Option DefnLoc :=
  match st.lines.get? line with
  | none => none
  | some lt =>
    match tokenAt lt col with
    | none => none
    | some w =>
      match lookupSym st.symbols (pyUpper w) with
      | some s => some { line := s.line, column := s.column, name := s.name }
      | none => none

/-- Result record of `get_references_at`. -/
structure RefLoc where
  line : Nat
  column : Nat
  end_column : Nat
deriving DecidableEq

/-- `HALSParser.get_references_at`.  A matched token is never the empty
string, so the `if not target_word` test is exactly the `none` case. -/
def get_references_at (st : ParserState) (line col : Nat) : List RefLoc :=
  match st.lines.get? line with
  | none => []
  | some lt =>
    match tokenAt lt col with
    | none => []
    | some w =>
      (st.references.filter (fun ref => ref.name = pyUpper w)).map
        (fun ref => { line := ref.line, column := ref.column,
                      end_column := ref.end_column })

/-- Result record of `get_document_symbols`. -/
structure DocSym where
  name : Str
  kind : SymbolKind
  detail : Str
  line : Nat
  column : Nat
deriving DecidableEq

/-- Insertion step of a stable sort by line: the new element goes after
every element whose line is not larger. -/
def insertByLine (x : DocSym) : List DocSym → List DocSym
  | [] => [x]
  | y :: ys => if y.line ≤ x.line then y :: insertByLine x ys else x :: y :: ys

/-- Python `sorted(symbols, key=lambda x: x['line'])` — a stable sort;
insertion sort with this insertion step computes the same list. -/
def pySortByLine (xs : List DocSym) : List DocSym :=
  xs.foldl (fun acc x => insertByLine x acc) []

/-- `HALSParser.get_document_symbols`: the table entries in dict order,
stably sorted by declaration line. -/
def get_document_symbols (st : ParserState) : List DocSym :=
  pySortByLine (st.symbols.map (fun e =>
    { name := e.2.name, kind := e.2.kind, detail := e.2.data_type,
      line := e.2.line, column := e.2.column }))

/-- `HALSParser.get_diagnostics`. -/
def get_diagnostics (st : ParserState) : List Diagnostic := st.diagnostics

/-! ### Spec-side definitions

These are written from the specification's wording, to be compared with the
translations above. -/

/-- Index of the first `/*` of a text. -/
def findOpenIdx : Str → Option Nat
  | [] => none
  | [_] => none
  | c :: d :: rest =>
    if c = '/' ∧ d = '*' then some 0 else (findOpenIdx (d :: rest)).map (· + 1)

/-- Index of the first `*/` of a text. -/
def findCloseIdx : Str → Option Nat
  | [] => none
  | [_] => none
  | c :: d :: rest =>
    if c = '*' ∧ d = '/' then some 0 else (findCloseIdx (d :: rest)).map (· + 1)

/-- Index of the last `*/` of a text. -/
def lastCloseIdx : Str → Option Nat
  | [] => none
  | [_] => none
  | c :: d :: rest =>
    match lastCloseIdx (d :: rest) with
    | some k => some (k + 1)
    | none => if c = '*' ∧ d = '/' then some 0 else none

/-- Fuel-indexed comment stripping as worded in the amended claim:
repeatedly delete from the first `/*` to the nearest following `*/`
(spanning newlines, non-nesting); if the first opener is unclosed, nothing
is removed.  The fuel only makes the recursion structural. -/
def specRemoveCommentsFuel : Nat → Str → Str
  | 0, cs => cs
  | fuel + 1, cs =>
    match findOpenIdx cs with
    | none => cs
    | some i =>
      match findCloseIdx (cs.drop (i + 2)) with
      | none => cs
      | some j =>
        cs.take i ++ specRemoveCommentsFuel fuel (cs.drop (i + 2 + j + 2))

/-- Spec-side comment stripping (amended claim wording). -/
def specRemoveComments (cs : Str) : Str := specRemoveCommentsFuel cs.length cs

/-- Fuel-indexed comment stripping under the claim's literal "greedily"
reading: a comment would extend from the first `/*` to the last `*/` of
the rest of the text. -/
def removeCommentsGreedyFuel : Nat → Str → Str
  | 0, cs => cs
  | fuel + 1, cs =>
    match findOpenIdx cs with
    | none => cs
    | some i =>
      match lastCloseIdx (cs.drop (i + 2)) with
      | none => cs
      | some j =>
        cs.take i ++ removeCommentsGreedyFuel fuel (cs.drop (i + 2 + j + 2))

/-- Greedy-reading comment stripping (claim wording, literal). -/
def removeCommentsGreedy (cs : Str) : Str :=
  removeCommentsGreedyFuel cs.length cs

/-- Last `(name, symbol)` entry a pass produced for a canonical name: when
a pass writes a name several times, the last write is the one that can
survive. -/
def lastEntryFor (es : List (Str × Symbol)) (n : Str) : Option Symbol :=
  match es with
  | [] => none
  | e :: rest =>
    match lastEntryFor rest n with
    | some v => some v
    | none => if e.1 = n then some e.2 else none

/-- Pass `k` (0-based, pass 12 being the label pass) matches canonical name
`n` on text `t`. -/
def passMatchesName (t : Str) (k : Nat) (n : Str) : Prop :=
  lastEntryFor ((passEntries t).getD k []) n ≠ none

instance (t : Str) (k : Nat) (n : Str) : Decidable (passMatchesName t k n) :=
  inferInstanceAs (Decidable (_ ≠ _))

/-- Spec-side (C5): classification of one line by its first character,
case-insensitively, as worded in the claim: `E`/`S` lines are dropped
(`none`), `M` lines lose the marker, `C` lines become a block comment
around the rest of the line, everything else — including empty lines —
passes through. -/
def specLineTransform (l : Str) : Option Str :=
  match l with
  | [] => some []
  | c :: rest =>
    if c.toUpper = 'E' || c.toUpper = 'S' then none
    else if c.toUpper = 'M' then some rest
    else if c.toUpper = 'C' then some ('/' :: '*' :: rest ++ ['*', '/'])
    else some (c :: rest)

/-- Spec-side (C5): the lines the continuation pass drops. -/
def isDroppedLine (l : Str) : Bool :=
  match l with
  | [] => false
  | c :: _ => c.toUpper = 'E' || c.toUpper = 'S'

/-- Number of dropped lines in a list of lines. -/
def countDropped (ls : List Str) : Nat := (ls.filter isDroppedLine).length

/-- Spec-side (C3): does a maximal identifier-shaped occurrence start at
position `p`?  The character before `p` must not be a word character (for
`p = 0` the role of that character is played by `prev`, `none` at the very
start of the text), and the character at `p` must be a letter or
underscore. -/
def occStartAtP (prev : Option Char) (cs : Str) (p : Nat) : Bool :=
  decide (p < cs.length) && pyIdentStart (cs.getD p ' ') &&
    (if p = 0 then atBoundary prev else !pyWordChar (cs.getD (p - 1) ' '))

/-- Length of the maximal run of word characters starting at `p` (the
occurrence extends to the right as far as word characters go). -/
def runLenAt (cs : Str) (p : Nat) : Nat :=
  ((cs.drop p).takeWhile pyWordChar).length

/-- Spec-side (C3): every maximal identifier-shaped occurrence of a text,
as a `(position, length)` pair, in increasing position order;
`prev` generalizes the character preceding the text. -/
def identOccP (prev : Option Char) (cs : Str) : List (Nat × Nat) :=
  (List.range cs.length).filterMap (fun p =>
    if occStartAtP prev cs p then some (p, runLenAt cs p) else none)

/-- Spec-side (C3): the maximal identifier-shaped occurrences of a text. -/
def identOccurrences (cs : Str) : List (Nat × Nat) := identOccP none cs

/-- Spec-side (C3): the line of an offset is the number of newlines before
it. -/
def specLineOf (cs : Str) (p : Nat) : Nat := (cs.take p).count '\n'

/-- Spec-side (C3): the column of an offset is the number of characters
between the last newline before it and the offset. -/
def specColOf (cs : Str) (p : Nat) : Nat :=
  ((cs.take p).reverse.takeWhile (fun c => c ≠ '\n')).length

/-- Spec-side (C3): the reference list as the claim words it — one
`Reference` per maximal identifier-shaped occurrence whose upper-cased
text is not a keyword, carrying the canonical name, line, start column and
end column = start column + length. -/
def specReferences (cs : Str) : List Reference :=
  (identOccurrences cs).filterMap (fun pl =>
    let name := pyUpper ((cs.drop pl.1).take pl.2)
    if name ∈ KEYWORDS then none
    else some { name := name, line := specLineOf cs pl.1,
                column := specColOf cs pl.1,
                end_column := specColOf cs pl.1 + pl.2 })

/-! ### Symbol table lemmas -/

theorem lookupSym_insertSym (tbl : List (Str × Symbol)) (k n : Str)
    (v : Symbol) :
    lookupSym (insertSym tbl k v) n =
      if k = n then some v else lookupSym tbl n := by
  induction tbl with
  | nil => simp [insertSym, lookupSym]
  | cons e rest ih =>
    obtain ⟨k1, v1⟩ := e
    simp only [insertSym]
    by_cases h1 : k1 = k
    · subst h1
      by_cases h2 : k1 = n <;> simp [lookupSym, h2]
    · simp only [if_neg h1, lookupSym]
      by_cases h2 : k1 = n
      · subst h2
        have hk : ¬ k = k1 := fun h => h1 h.symm
        simp [hk]
      · simp [h2, ih]

theorem lookupSym_append (t1 t2 : List (Str × Symbol)) (n : Str) :
    lookupSym (t1 ++ t2) n =
      match lookupSym t1 n with
      | some v => some v
      | none => lookupSym t2 n := by
  induction t1 with
  | nil => simp [lookupSym]
  | cons e rest ih =>
    obtain ⟨k1, v1⟩ := e
    by_cases h : k1 = n <;> simp [lookupSym, h, ih]

theorem lastEntryFor_append (es1 es2 : List (Str × Symbol)) (n : Str) :
    lastEntryFor (es1 ++ es2) n =
      match lastEntryFor es2 n with
      | some v => some v
      | none => lastEntryFor es1 n := by
  induction es1 with
  | nil =>
    simp only [List.nil_append, lastEntryFor]
    cases lastEntryFor es2 n <;> simp
  | cons e rest ih =>
    simp only [List.cons_append, lastEntryFor, List.append_eq]
    rw [ih]
    cases h2 : lastEntryFor es2 n <;> cases h3 : lastEntryFor rest n <;> simp

theorem lookupSym_applyEntries (es : List (Str × Symbol))
    (tbl : List (Str × Symbol)) (n : Str) :
    lookupSym (applyEntries tbl es) n =
      match lastEntryFor es n with
      | some v => some v
      | none => lookupSym tbl n := by
  induction es generalizing tbl with
  | nil => simp [applyEntries, lastEntryFor]
  | cons e rest ih =>
    have h0 : applyEntries tbl (e :: rest) =
        applyEntries (insertSym tbl e.1 e.2) rest := rfl
    rw [h0, ih]
    simp only [lastEntryFor]
    cases lastEntryFor rest n with
    | none =>
      simp only [lookupSym_insertSym]
      by_cases he : e.1 = n <;> simp [he]
    | some v => simp

theorem foldl_applyEntries_flatten (LL : List (List (Str × Symbol)))
    (tbl : List (Str × Symbol)) :
    LL.foldl applyEntries tbl = applyEntries tbl LL.flatten := by
  induction LL generalizing tbl with
  | nil => simp [applyEntries]
  | cons es rest ih =>
    have h1 : (es :: rest).foldl applyEntries tbl =
        rest.foldl applyEntries (applyEntries tbl es) := rfl
    rw [h1, ih]
    simp [applyEntries, List.foldl_append]

theorem lastEntryFor_flatten_none (LL : List (List (Str × Symbol))) (n : Str)
    (h : ∀ es ∈ LL, lastEntryFor es n = none) :
    lastEntryFor LL.flatten n = none := by
  induction LL with
  | nil => simp [lastEntryFor]
  | cons es rest ih =>
    rw [List.flatten_cons, lastEntryFor_append,
      ih (fun es2 hm => h es2 (by simp [hm]))]
    exact h es (by simp)

theorem lastEntryFor_flatten_at (LL : List (List (Str × Symbol))) (m : Nat)
    (n : Str) (v : Symbol) (hm : m < LL.length)
    (hv : lastEntryFor (LL.getD m []) n = some v)
    (hlater : ∀ k, m < k → k < LL.length →
      lastEntryFor (LL.getD k []) n = none) :
    lastEntryFor LL.flatten n = some v := by
  induction LL generalizing m with
  | nil => simp at hm
  | cons es rest ih =>
    rw [List.flatten_cons, lastEntryFor_append]
    cases m with
    | zero =>
      have hrest : lastEntryFor rest.flatten n = none := by
        apply lastEntryFor_flatten_none
        intro es2 hmem
        obtain ⟨k, hk, hke⟩ := List.mem_iff_getElem.mp hmem
        have h2 := hlater (k + 1) (by omega) (by simpa using hk)
        rw [List.getD_cons_succ] at h2
        rwa [List.getD_eq_getElem _ _ hk, hke] at h2
      rw [hrest]
      simpa using hv
    | succ m2 =>
      have hj : lastEntryFor rest.flatten n = some v := by
        apply ih m2 (by simpa using hm) (by simpa using hv)
        intro k hk1 hk2
        have h2 := hlater (k + 1) (by omega) (by simp; omega)
        simpa using h2
      rw [hj]

theorem lookupSym_insertIfAbsent_preserved (tbl : List (Str × Symbol))
    (e : Str × Symbol) (n : Str) (v : Symbol)
    (h : lookupSym tbl n = some v) :
    lookupSym (insertIfAbsent tbl e) n = some v := by
  unfold insertIfAbsent
  split
  · exact h
  · rw [lookupSym_append, h]

theorem lookupSym_label_fold (es : List (Str × Symbol))
    (tbl : List (Str × Symbol)) (n : Str) (v : Symbol)
    (h : lookupSym tbl n = some v) :
    lookupSym (es.foldl insertIfAbsent tbl) n = some v := by
  induction es generalizing tbl with
  | nil => exact h
  | cons e rest ih =>
    exact ih _ (lookupSym_insertIfAbsent_preserved _ _ _ _ h)

/-! ### Comment-stripping lemmas -/

theorem findCloseSplit_length :
    ∀ cs after : Str, findCloseSplit cs = some after →
      after.length < cs.length
  | [], _, h => by simp [findCloseSplit] at h
  | [c], _, h => by simp [findCloseSplit] at h
  | c :: d :: rest, after, h => by
    rw [findCloseSplit] at h
    split at h
    · cases h
      simp
      omega
    · have := findCloseSplit_length (d :: rest) after h
      simp at this ⊢
      omega
theorem findCloseSplit_eq_idx :
    ∀ cs : Str, findCloseSplit cs =
      (findCloseIdx cs).map (fun j => cs.drop (j + 2))
  | [] => by simp [findCloseSplit, findCloseIdx]
  | [c] => by simp [findCloseSplit, findCloseIdx]
  | c :: d :: rest => by
    rw [findCloseSplit, findCloseIdx]
    split_ifs with h
    · rfl
    · rw [findCloseSplit_eq_idx (d :: rest)]
      cases findCloseIdx (d :: rest) with
      | none => rfl
      | some j => rfl

theorem findOpenIdx_le :
    ∀ (cs : Str) (i : Nat), findOpenIdx cs = some i → i + 2 ≤ cs.length
  | [], _, h => by simp [findOpenIdx] at h
  | [c], _, h => by simp [findOpenIdx] at h
  | c :: d :: rest, i, h => by
    rw [findOpenIdx] at h
    split_ifs at h with hcd
    · cases h
      simp
    · cases hoi : findOpenIdx (d :: rest) with
      | none => rw [hoi] at h; cases h
      | some i2 =>
        rw [hoi] at h
        cases h
        have h3 := findOpenIdx_le (d :: rest) i2 hoi
        simp only [List.length_cons] at h3 ⊢
        omega

theorem findCloseIdx_le :
    ∀ (cs : Str) (j : Nat), findCloseIdx cs = some j → j + 2 ≤ cs.length
  | [], _, h => by simp [findCloseIdx] at h
  | [c], _, h => by simp [findCloseIdx] at h
  | c :: d :: rest, j, h => by
    rw [findCloseIdx] at h
    split_ifs at h with hcd
    · cases h
      simp
    · cases hoi : findCloseIdx (d :: rest) with
      | none => rw [hoi] at h; cases h
      | some j2 =>
        rw [hoi] at h
        cases h
        have h3 := findCloseIdx_le (d :: rest) j2 hoi
        simp only [List.length_cons] at h3 ⊢
        omega

theorem removeCommentsFuel_congr :
    ∀ f1 f2 cs, cs.length ≤ f1 → cs.length ≤ f2 →
      removeCommentsFuel f1 cs = removeCommentsFuel f2 cs := by
  intro f1
  induction f1 with
  | zero =>
    intro f2 cs h1 h2
    have hnil : cs = [] := List.length_eq_zero.mp (Nat.le_zero.mp h1)
    subst hnil
    cases f2 <;> rfl
  | succ f1 ih =>
    intro f2 cs h1 h2
    cases cs with
    | nil => cases f2 <;> rfl
    | cons c cs2 =>
      cases cs2 with
      | nil =>
        cases f2 with
        | zero => simp at h2
        | succ f2 => rfl
      | cons d rest =>
        cases f2 with
        | zero => simp at h2
        | succ f2 =>
          simp only [removeCommentsFuel]
          split_ifs with h
          · cases hfc : findCloseSplit rest with
            | some after =>
              have hlt := findCloseSplit_length rest after hfc
              apply ih <;> (simp at h1 h2 ⊢; omega)
            | none => rfl
          · congr 1
            apply ih <;> (simp at h1 h2 ⊢; omega)

theorem removeComments_cons2 (c d : Char) (rest : Str) :
    removeComments (c :: d :: rest) =
      (if c = '/' ∧ d = '*' then
        match findCloseSplit rest with
        | some after => removeComments after
        | none => c :: d :: rest
      else c :: removeComments (d :: rest)) := by
  show removeCommentsFuel (rest.length + 1 + 1) (c :: d :: rest) = _
  rw [removeCommentsFuel]
  split_ifs with h
  · cases hfc : findCloseSplit rest with
    | some after =>
      exact removeCommentsFuel_congr _ _ _
        (le_of_lt (Nat.lt_succ_of_lt (findCloseSplit_length _ _ hfc)))
        (le_refl _)
    | none => rfl
  · rfl

theorem specFuel_succ (f : Nat) (cs : Str) :
    specRemoveCommentsFuel (f + 1) cs =
      (match findOpenIdx cs with
      | none => cs
      | some i =>
        match findCloseIdx (cs.drop (i + 2)) with
        | none => cs
        | some j =>
          cs.take i ++ specRemoveCommentsFuel f (cs.drop (i + 2 + j + 2))) :=
  rfl

theorem specFuel_none (f : Nat) (cs : Str) (h : findOpenIdx cs = none) :
    specRemoveCommentsFuel (f + 1) cs = cs := by
  rw [specFuel_succ, h]

theorem specFuel_some_none (f : Nat) (cs : Str) (i : Nat)
    (hi : findOpenIdx cs = some i)
    (hj : findCloseIdx (cs.drop (i + 2)) = none) :
    specRemoveCommentsFuel (f + 1) cs = cs := by
  rw [specFuel_succ, hi]
  show (match findCloseIdx (cs.drop (i + 2)) with
    | none => cs
    | some j =>
      cs.take i ++ specRemoveCommentsFuel f (cs.drop (i + 2 + j + 2))) = cs
  rw [hj]

theorem specFuel_some_some (f : Nat) (cs : Str) (i j : Nat)
    (hi : findOpenIdx cs = some i)
    (hj : findCloseIdx (cs.drop (i + 2)) = some j) :
    specRemoveCommentsFuel (f + 1) cs =
      cs.take i ++ specRemoveCommentsFuel f (cs.drop (i + 2 + j + 2)) := by
  rw [specFuel_succ, hi]
  show (match findCloseIdx (cs.drop (i + 2)) with
    | none => cs
    | some j =>
      cs.take i ++ specRemoveCommentsFuel f (cs.drop (i + 2 + j + 2))) = _
  rw [hj]

theorem specRemoveCommentsFuel_congr :
    ∀ f1 f2 cs, cs.length ≤ f1 → cs.length ≤ f2 →
      specRemoveCommentsFuel f1 cs = specRemoveCommentsFuel f2 cs := by
  intro f1
  induction f1 with
  | zero =>
    intro f2 cs h1 h2
    have hnil : cs = [] := List.length_eq_zero.mp (Nat.le_zero.mp h1)
    subst hnil
    cases f2 with
    | zero => rfl
    | succ f2 =>
      rw [specFuel_none f2 [] rfl]
      rfl
  | succ f1 ih =>
    intro f2 cs h1 h2
    cases f2 with
    | zero =>
      have hnil : cs = [] := List.length_eq_zero.mp (Nat.le_zero.mp h2)
      subst hnil
      rw [specFuel_none f1 [] rfl]
      rfl
    | succ f2 =>
      cases hoi : findOpenIdx cs with
      | none => rw [specFuel_none f1 cs hoi, specFuel_none f2 cs hoi]
      | some i =>
        cases hcj : findCloseIdx (cs.drop (i + 2)) with
        | none =>
          rw [specFuel_some_none f1 cs i hoi hcj,
            specFuel_some_none f2 cs i hoi hcj]
        | some j =>
          rw [specFuel_some_some f1 cs i j hoi hcj,
            specFuel_some_some f2 cs i j hoi hcj]
          congr 1
          have hi2 := findOpenIdx_le cs i hoi
          have hj2 := findCloseIdx_le _ j hcj
          simp only [List.length_drop] at hj2
          apply ih <;> (simp only [List.length_drop]; omega)

theorem specRC_none (cs : Str) (h : findOpenIdx cs = none) :
    specRemoveComments cs = cs := by
  unfold specRemoveComments
  cases hl : cs.length with
  | zero => rfl
  | succ n => exact specFuel_none n cs h

theorem specRC_some_none (cs : Str) (i : Nat)
    (hi : findOpenIdx cs = some i)
    (hj : findCloseIdx (cs.drop (i + 2)) = none) :
    specRemoveComments cs = cs := by
  unfold specRemoveComments
  cases hl : cs.length with
  | zero => rfl
  | succ n => exact specFuel_some_none n cs i hi hj

theorem specRC_some_some (cs : Str) (i j : Nat)
    (hi : findOpenIdx cs = some i)
    (hj : findCloseIdx (cs.drop (i + 2)) = some j) :
    specRemoveComments cs =
      cs.take i ++ specRemoveComments (cs.drop (i + 2 + j + 2)) := by
  unfold specRemoveComments
  cases hl : cs.length with
  | zero =>
    have hnil : cs = [] := List.length_eq_zero.mp hl
    subst hnil
    simp [findOpenIdx] at hi
  | succ n =>
    rw [specFuel_some_some n cs i j hi hj]
    congr 1
    apply specRemoveCommentsFuel_congr
    · have h1 := findOpenIdx_le cs i hi
      have h2 := findCloseIdx_le _ j hj
      simp only [List.length_drop] at h2 ⊢
      omega
    · exact le_refl _

theorem removeComments_eq_specAux :
    ∀ fuel cs, cs.length ≤ fuel →
      removeComments cs = specRemoveComments cs := by
  intro fuel
  induction fuel with
  | zero =>
    intro cs h
    have hnil : cs = [] := List.length_eq_zero.mp (Nat.le_zero.mp h)
    subst hnil
    rfl
  | succ fuel ih =>
    intro cs h
    cases cs with
    | nil => rfl
    | cons c cs2 =>
      cases cs2 with
      | nil =>
        rw [specRC_none [c] rfl]
        rfl
      | cons d rest =>
        rw [removeComments_cons2]
        by_cases hcd : c = '/' ∧ d = '*'
        · rw [if_pos hcd]
          have hopen : findOpenIdx (c :: d :: rest) = some 0 := by
            rw [findOpenIdx, if_pos hcd]
          rw [findCloseSplit_eq_idx rest]
          cases hj : findCloseIdx rest with
          | none =>
            rw [specRC_some_none (c :: d :: rest) 0 hopen hj]
            rfl
          | some j =>
            rw [specRC_some_some (c :: d :: rest) 0 j hopen hj]
            show removeComments (rest.drop (j + 2)) = _
            have hdrop : (c :: d :: rest).drop (0 + 2 + j + 2) =
                rest.drop (j + 2) := by
              rw [show 0 + 2 + j + 2 = (j + 2) + 1 + 1 from by omega,
                List.drop_succ_cons, List.drop_succ_cons]
            rw [hdrop, List.take_zero, List.nil_append]
            apply ih
            have hcl := findCloseIdx_le rest j hj
            simp only [List.length_drop]
            simp only [List.length_cons] at h
            omega
        · rw [if_neg hcd]
          rw [ih (d :: rest) (by simp only [List.length_cons] at h ⊢; omega)]
          have hfo : findOpenIdx (c :: d :: rest) =
              (findOpenIdx (d :: rest)).map (· + 1) := by
            rw [findOpenIdx, if_neg hcd]
          cases hoi : findOpenIdx (d :: rest) with
          | none =>
            rw [specRC_none (d :: rest) hoi,
              specRC_none (c :: d :: rest) (by rw [hfo, hoi]; rfl)]
          | some i2 =>
            have hfo2 : findOpenIdx (c :: d :: rest) = some (i2 + 1) := by
              rw [hfo, hoi]
              rfl
            have hdropeq : (c :: d :: rest).drop (i2 + 1 + 2) =
                (d :: rest).drop (i2 + 2) := by
              rw [show i2 + 1 + 2 = (i2 + 2) + 1 from by omega,
                List.drop_succ_cons]
            cases hcj : findCloseIdx ((d :: rest).drop (i2 + 2)) with
            | none =>
              rw [specRC_some_none (d :: rest) i2 hoi hcj,
                specRC_some_none (c :: d :: rest) (i2 + 1) hfo2
                  (by rw [hdropeq]; exact hcj)]
            | some j =>
              rw [specRC_some_some (d :: rest) i2 j hoi hcj,
                specRC_some_some (c :: d :: rest) (i2 + 1) j hfo2
                  (by rw [hdropeq]; exact hcj)]
              have ht : (c :: d :: rest).take (i2 + 1) =
                  c :: (d :: rest).take i2 := rfl
              have hd2 : (c :: d :: rest).drop (i2 + 1 + 2 + j + 2) =
                  (d :: rest).drop (i2 + 2 + j + 2) := by
                rw [show i2 + 1 + 2 + j + 2 = (i2 + 2 + j + 2) + 1 from by
                  omega, List.drop_succ_cons]
              rw [ht, hd2, List.cons_append]

/-! ### Preprocessor lemmas -/

theorem processLines_eq_filterMap (ls : List Str) :
    processLines ls = ls.filterMap specLineTransform := by
  induction ls with
  | nil => rfl
  | cons l rest ih =>
    cases l with
    | nil => simp [processLines, specLineTransform, ih]
    | cons c cr =>
      simp only [processLines]
      split_ifs with h1 h2 h3 <;>
        simp_all [List.filterMap_cons, specLineTransform]

theorem specLineTransform_none_iff (l : Str) :
    specLineTransform l = none ↔ isDroppedLine l = true := by
  cases l with
  | nil => simp [specLineTransform, isDroppedLine]
  | cons c cr =>
    simp only [specLineTransform, isDroppedLine]
    split_ifs <;> simp_all

theorem countDropped_cons (a : Str) (xs : List Str) :
    countDropped (a :: xs) =
      (if isDroppedLine a then 1 else 0) + countDropped xs := by
  simp only [countDropped, List.filter_cons]
  split_ifs <;> simp [Nat.add_comm]

theorem countDropped_take_le (ls : List Str) (i : Nat) :
    countDropped (ls.take i) ≤ i := by
  unfold countDropped
  calc ((ls.take i).filter isDroppedLine).length ≤ (ls.take i).length :=
        List.length_filter_le _ _
    _ ≤ i := List.length_take_le _ _

theorem filterMap_index_shift (ls : List Str) (i : Nat) (l : Str)
    (hi : ls[i]? = some l) (hnd : isDroppedLine l = false) :
    (ls.filterMap specLineTransform)[i - countDropped (ls.take i)]? =
      specLineTransform l := by
  induction ls generalizing i with
  | nil => simp at hi
  | cons a rest ih =>
    cases i with
    | zero =>
      simp only [List.getElem?_cons_zero, Option.some.injEq] at hi
      subst hi
      obtain ⟨l2, hl2⟩ : ∃ l2, specLineTransform a = some l2 := by
        cases h : specLineTransform a with
        | none =>
          rw [specLineTransform_none_iff] at h
          rw [h] at hnd
          cases hnd
        | some x => exact ⟨x, rfl⟩
      simp [List.filterMap_cons, hl2, countDropped]
    | succ i2 =>
      simp only [List.getElem?_cons_succ] at hi
      rw [List.take_succ_cons]
      cases ha : specLineTransform a with
      | none =>
        have hda : isDroppedLine a = true := (specLineTransform_none_iff a).mp ha
        rw [List.filterMap_cons_none ha, countDropped_cons, hda]
        norm_num
        have harith : i2 + 1 - (1 + countDropped (List.take i2 rest)) =
            i2 - countDropped (List.take i2 rest) := by omega
        rw [harith]
        exact ih i2 hi
      | some a2 =>
        have hda : isDroppedLine a = false := by
          cases h2 : isDroppedLine a
          · rfl
          · rw [← specLineTransform_none_iff] at h2
            rw [h2] at ha
            cases ha
        rw [List.filterMap_cons_some ha, countDropped_cons, hda]
        norm_num
        have hle := countDropped_take_le rest i2
        have harith : i2 + 1 - countDropped (List.take i2 rest) =
            (i2 - countDropped (List.take i2 rest)) + 1 := by omega
        rw [harith]
        rw [List.getElem?_cons_succ]
        exact ih i2 hi

/-! ### Single-character input lemmas -/

theorem mLitCI_short :
    ∀ lit cs : Str, cs.length < lit.length → mLitCI lit cs = none
  | [], _, h => by simp at h
  | _ :: _, [], _ => by rw [mLitCI]
  | l :: ls, c :: rest, h => by
    rw [mLitCI]
    split_ifs
    · exact mLitCI_short ls rest (by simp at h ⊢; omega)
    · rfl

theorem mColonUnit_nil (lit : Str) : mColonUnit lit [] = none := by
  simp [mColonUnit, mIdent]

theorem mColonUnit_single (lit : Str) (c : Char) : mColonUnit lit [c] = none := by
  simp only [mColonUnit, mIdent]
  by_cases h : pyIdentStart c = true <;>
    simp [h, dropSpaces, mChar, Option.bind]

theorem mProcedure_nil : mProcedure [] = none := by
  simp [mProcedure, mIdent]

theorem mProcedure_single (c : Char) : mProcedure [c] = none := by
  simp only [mProcedure, mIdent]
  by_cases h : pyIdentStart c = true <;>
    simp [h, dropSpaces, mChar, Option.bind]

theorem mFunction_nil : mFunction [] = none := by
  simp [mFunction, mIdent]

theorem mFunction_single (c : Char) : mFunction [c] = none := by
  simp only [mFunction, mIdent]
  by_cases h : pyIdentStart c = true <;>
    simp [h, dropSpaces, mChar, Option.bind]

theorem mDeclareHead_nil : mDeclareHead [] = none := by
  simp [mDeclareHead, mLitCI_short (("DECLARE").data) [] (by simp)]

theorem mDeclareHead_single (c : Char) : mDeclareHead [c] = none := by
  simp [mDeclareHead, mLitCI_short (("DECLARE").data) [c] (by simp)]

theorem mScalarDecl_nil : mScalarDecl [] = none := by
  simp [mScalarDecl, mDeclareHead_nil]

theorem mScalarDecl_single (c : Char) : mScalarDecl [c] = none := by
  simp [mScalarDecl, mDeclareHead_single]

theorem mArrayDecl_nil : mArrayDecl [] = none := by
  simp [mArrayDecl, mDeclareHead_nil]

theorem mArrayDecl_single (c : Char) : mArrayDecl [c] = none := by
  simp [mArrayDecl, mDeclareHead_single]

theorem mConstDecl_nil : mConstDecl [] = none := by
  simp [mConstDecl, mDeclareHead_nil]

theorem mConstDecl_single (c : Char) : mConstDecl [c] = none := by
  simp [mConstDecl, mDeclareHead_single]

theorem mVectorDecl_nil : mVectorDecl [] = none := by
  simp [mVectorDecl, mDeclareHead_nil]

theorem mVectorDecl_single (c : Char) : mVectorDecl [c] = none := by
  simp [mVectorDecl, mDeclareHead_single]

theorem mMatrixDecl_nil : mMatrixDecl [] = none := by
  simp [mMatrixDecl, mDeclareHead_nil]

theorem mMatrixDecl_single (c : Char) : mMatrixDecl [c] = none := by
  simp [mMatrixDecl, mDeclareHead_single]

theorem mStructDecl_nil : mStructDecl [] = none := by
  simp [mStructDecl, mDeclareHead_nil]

theorem mStructDecl_single (c : Char) : mStructDecl [c] = none := by
  simp [mStructDecl, mDeclareHead_single]

theorem mReplaceDecl_nil : mReplaceDecl [] = none := by
  simp [mReplaceDecl, mLitCI_short (("REPLACE").data) [] (by simp)]

theorem mReplaceDecl_single (c : Char) : mReplaceDecl [c] = none := by
  simp [mReplaceDecl, mLitCI_short (("REPLACE").data) [c] (by simp)]

theorem mLabel_nil : mLabel [] = none := by
  simp [mLabel, mIdent]

theorem mLabel_single (c : Char) : mLabel [c] = none := by
  simp only [mLabel, mIdent]
  by_cases h : pyIdentStart c = true <;>
    simp [h, dropSpaces, mChar, Option.bind]

theorem scanP_single_none {α : Type} (m : Str → Option (α × Str)) (c : Char)
    (h1 : m [c] = none) (h0 : m [] = none) : scanP m [c] = [] := by
  simp [scanP, allTries, wrapTry, atBoundary, h1, h0, selectMatches,
    ite_self]

/-- On a one-character text no extraction pass produces a symbol. -/
theorem buildSymbols_single (c : Char) : buildSymbols [c] = [] := by
  unfold buildSymbols nonLabelEntries labelEntries
  unfold programEntries procedureEntries functionEntries taskEntries
    compoolEntries scalarEntries arrayEntries constantEntries vectorEntries
    matrixEntries structEntries replaceEntries
  rw [scanP_single_none _ c (mColonUnit_single _ c) (mColonUnit_nil _),
    scanP_single_none _ c (mProcedure_single c) mProcedure_nil,
    scanP_single_none _ c (mFunction_single c) mFunction_nil,
    scanP_single_none _ c (mColonUnit_single _ c) (mColonUnit_nil _),
    scanP_single_none _ c (mColonUnit_single _ c) (mColonUnit_nil _),
    scanP_single_none _ c (mScalarDecl_single c) mScalarDecl_nil,
    scanP_single_none _ c (mArrayDecl_single c) mArrayDecl_nil,
    scanP_single_none _ c (mConstDecl_single c) mConstDecl_nil,
    scanP_single_none _ c (mVectorDecl_single c) mVectorDecl_nil,
    scanP_single_none _ c (mMatrixDecl_single c) mMatrixDecl_nil,
    scanP_single_none _ c (mStructDecl_single c) mStructDecl_nil,
    scanP_single_none _ c (mReplaceDecl_single c) mReplaceDecl_nil,
    scanP_single_none _ c (mLabel_single c) mLabel_nil]
  rfl

/-- The preprocessor on a one-character text. -/
theorem preprocess_single (c : Char) :
    preprocessMultiline [c] =
      (if c.toUpper = 'E' ∨ c.toUpper = 'S' then []
      else if c.toUpper = 'M' then []
      else if c.toUpper = 'C' then ("/**/").data
      else [c]) := by
  by_cases hnl : c = '\n'
  · subst hnl
    rfl
  · have hsplit : splitNl [c] = [[c]] := by
      simp [splitNl, pySplitOnChar, hnl]
    unfold preprocessMultiline
    rw [hsplit]
    simp only [processLines]
    split_ifs with h1 h2 h3 <;> simp_all [joinNl]

/-- A one-character keyword does not exist. -/
theorem single_not_keyword (c : Char) : ¬ ([c] ∈ KEYWORDS) := by
  intro h
  have h2 : ∀ k ∈ KEYWORDS, 2 ≤ k.length := by decide
  have h3 := h2 [c] h
  simp at h3

/-- The references produced by a one-character text. -/
theorem parseReferences_single (c : Char) :
    parseReferences [c] =
      (if pyIdentStart c
      then [{ name := [c.toUpper], line := 0, column := 0, end_column := 1 }]
      else []) := by
  by_cases h : pyIdentStart c = true
  · have hword : pyWordChar c = true := by
      simp only [pyIdentStart, Bool.or_eq_true, decide_eq_true_eq,
        beq_iff_eq] at h
      simp only [pyWordChar, Bool.or_eq_true, decide_eq_true_eq, beq_iff_eq]
      tauto
    simp only [parseReferences, scanP, allTries, wrapTry, atBoundary, mRef,
      mIdent, h]
    simp [hword, selectMatches, single_not_keyword, findPosition, lastNlIdx,
      List.filterMap_cons, pyUpper]
  · simp only [parseReferences, scanP, allTries, wrapTry, atBoundary, mRef,
      mIdent, h]
    simp [h, selectMatches, ite_self]

/-! ### Claim C5 — the continuation-unfolding pass -/

/-- C5: the continuation pass maps the input lines exactly as the claim
words it — classifying each non-empty line by its upper-cased first
character, dropping `E`/`S` lines, stripping the `M` marker, turning `C`
lines into block comments, passing everything else (and empty lines)
through — and a kept line at input index `i` lands at output index
`i - (number of dropped lines before i)`, so line numbers shift up past
dropped lines; finally, the symbol and reference state of `parse` is
computed from this normalized text (after comment stripping), not from the
original source. -/
theorem c5_preprocess_continuation (st : ParserState) (t : Str) :
    preprocessMultiline t = joinNl ((splitNl t).filterMap specLineTransform) ∧
    (∀ i l, (splitNl t)[i]? = some l → isDroppedLine l = false →
      ((splitNl t).filterMap
          specLineTransform)[i - countDropped ((splitNl t).take i)]? =
        specLineTransform l) ∧
    (parse st t).references =
      parseReferences (removeComments (preprocessMultiline t)) ∧
    (parse st t).symbols =
      buildSymbols (removeComments (preprocessMultiline t)) := by
  refine ⟨?_, ?_, rfl, rfl⟩
  · unfold preprocessMultiline
    rw [processLines_eq_filterMap]
  · intro i l hi hnd
    exact filterMap_index_shift _ i l hi hnd

/-- Witness input for C5: an `M` line, a dropped `E` line and a plain
line. -/
def c5Text : Str := ("Mfoo\nE1\nbar").data

theorem c5_preprocess_continuation_wit :
    ((splitNl c5Text).filterMap
        specLineTransform)[2 - countDropped ((splitNl c5Text).take 2)]? =
      specLineTransform (("bar").data) :=
  (c5_preprocess_continuation initState c5Text).2.1 2 (("bar").data)
    (by decide) (by decide)

/-! ### Reference scan lemmas -/

theorem word_of_identStart {c : Char} (h : pyIdentStart c = true) :
    pyWordChar c = true := by
  simp only [pyIdentStart, Bool.or_eq_true, decide_eq_true_eq,
    beq_iff_eq] at h
  simp only [pyWordChar, Bool.or_eq_true, decide_eq_true_eq, beq_iff_eq]
  tauto

theorem getD_append_right_own :
    ∀ (l1 l2 : List Char) (i : Nat) (d : Char),
      (l1 ++ l2).getD (l1.length + i) d = l2.getD i d
  | [], l2, i, d => by simp
  | c :: l1, l2, i, d => by
    simp only [List.cons_append, List.length_cons]
    rw [show l1.length + 1 + i = (l1.length + i) + 1 from by omega,
      List.getD_cons_succ]
    exact getD_append_right_own l1 l2 i d

theorem word_getLastD :
    ∀ (ws : Str) (w : Char), (∀ x ∈ ws, pyWordChar x = true) →
      pyWordChar w = true → pyWordChar (ws.getLastD w) = true
  | [], _, _, hw => hw
  | x :: ws, w, h, _ => by
    rw [List.getLastD_cons]
    exact word_getLastD ws x (fun y hy => h y (by simp [hy]))
      (h x (by simp))

theorem getD_last_eq :
    ∀ (tw : Str) (c : Char), (c :: tw).getD tw.length ' ' = tw.getLastD c
  | [], c => rfl
  | x :: tw, c => by
    simp only [List.length_cons, List.getD_cons_succ]
    rw [getD_last_eq tw x, List.getLastD_cons]

theorem wrapTry_mRef_wordPrev (w : Char) (hw : pyWordChar w = true)
    (cs : Str) : wrapTry mRef (some w) cs = none := by
  simp [wrapTry, atBoundary, hw]

theorem allTries_skip_words :
    ∀ (ws : Str) (w : Char) (pos2 : Nat) (rest2 : Str),
      (∀ x ∈ ws, pyWordChar x = true) → pyWordChar w = true →
      allTries (wrapTry mRef) (some w) pos2 (ws ++ rest2) =
        allTries (wrapTry mRef) (some (ws.getLastD w)) (pos2 + ws.length)
          rest2
  | [], w, pos2, rest2, _, _ => by simp [List.getLastD]
  | x :: ws, w, pos2, rest2, h, hw => by
    rw [List.cons_append, allTries.eq_2, wrapTry_mRef_wordPrev w hw,
      allTries_skip_words ws x (pos2 + 1) rest2
        (fun y hy => h y (by simp [hy])) (h x (by simp)),
      List.getLastD_cons]
    simp only [List.length_cons]
    rw [show pos2 + (ws.length + 1) = pos2 + 1 + ws.length from by omega]
    simp

theorem occStartAtP_cons_succ (prev : Option Char) (c : Char) (rest : Str)
    (p : Nat) :
    occStartAtP prev (c :: rest) (p + 1) = occStartAtP (some c) rest p := by
  simp only [occStartAtP, List.length_cons, Nat.add_lt_add_iff_right,
    List.getD_cons_succ, if_neg (Nat.succ_ne_zero p)]
  cases p with
  | zero => simp [atBoundary]
  | succ q => simp

theorem runLenAt_cons_succ (c : Char) (rest : Str) (p : Nat) :
    runLenAt (c :: rest) (p + 1) = runLenAt rest p := rfl

theorem identOccP_cons_bad (prev : Option Char) (c : Char) (rest : Str)
    (h : ¬ (atBoundary prev = true ∧ pyIdentStart c = true)) :
    identOccP prev (c :: rest) =
      (identOccP (some c) rest).map (fun pl => (pl.1 + 1, pl.2)) := by
  unfold identOccP
  rw [show (c :: rest).length = rest.length + 1 from by simp,
    List.range_succ_eq_map, List.filterMap_cons]
  have h0 : occStartAtP prev (c :: rest) 0 = false := by
    simp only [occStartAtP, List.getD_cons_zero, if_pos rfl]
    cases hb : atBoundary prev <;> cases hcc : pyIdentStart c <;>
      simp_all
  rw [h0]
  simp only [Bool.false_eq_true, if_false, List.filterMap_map,
    List.map_filterMap]
  apply List.filterMap_congr
  intro p _
  simp only [Function.comp_apply, occStartAtP_cons_succ, runLenAt_cons_succ]
  cases occStartAtP (some c) rest p <;> simp

theorem identOccP_cons_good (prev : Option Char) (c : Char) (rest : Str)
    (hb : atBoundary prev = true) (hc : pyIdentStart c = true) :
    identOccP prev (c :: rest) =
      (0, (rest.takeWhile pyWordChar).length + 1) ::
        (identOccP (some ((rest.takeWhile pyWordChar).getLastD c))
            (rest.dropWhile pyWordChar)).map
          (fun pl =>
            (pl.1 + ((rest.takeWhile pyWordChar).length + 1), pl.2)) := by
  have hwc : pyWordChar c = true := word_of_identStart hc
  set tw := rest.takeWhile pyWordChar with htw
  set r2 := rest.dropWhile pyWordChar with hr2
  have hsplit : rest = tw ++ r2 := (List.takeWhile_append_dropWhile _ _).symm
  have htww : ∀ x ∈ tw, pyWordChar x = true := fun x hx =>
    List.mem_takeWhile_imp hx
  set n := tw.length + 1 with hn
  have hcs : c :: rest = (c :: tw) ++ r2 := by rw [hsplit]; rfl
  have hctwlen : (c :: tw).length = n := by simp [hn]
  have hlen : (c :: rest).length = n + r2.length := by
    rw [hcs]
    simp [hn]
    omega
  have h00 : occStartAtP prev (c :: rest) 0 = true := by
    simp [occStartAtP, hb, hc]
  have hrl0 : runLenAt (c :: rest) 0 = n := by
    simp [runLenAt, List.takeWhile_cons, hwc, hn]
  have hmid : ∀ q ∈ List.range tw.length,
      ((fun p => if occStartAtP prev (c :: rest) p then
        some (p, runLenAt (c :: rest) p) else none) ∘ Nat.succ) q = none := by
    intro q hq
    rw [List.mem_range] at hq
    have hocc0 : occStartAtP prev (c :: rest) (q + 1) = false := by
      rw [occStartAtP_cons_succ]
      simp only [occStartAtP]
      cases q with
      | zero =>
        simp [atBoundary, hwc]
      | succ q2 =>
        have hq2 : q2 < tw.length := by omega
        have hget : rest.getD q2 ' ' = tw.getD q2 ' ' := by
          rw [hsplit]
          exact List.getD_append _ _ _ _ hq2
        have hw2 : pyWordChar (rest.getD q2 ' ') = true := by
          rw [hget, List.getD_eq_getElem _ _ hq2]
          exact htww _ (List.getElem_mem hq2)
        simp only [List.getD_eq_getElem?_getD] at hw2
        simp [hw2]
    simp [Function.comp_apply, hocc0]
  have hpartA : (List.range n).filterMap
      (fun p => if occStartAtP prev (c :: rest) p then
        some (p, runLenAt (c :: rest) p) else none) = [(0, n)] := by
    rw [hn, List.range_succ_eq_map, List.filterMap_cons, h00]
    simp only [if_true]
    rw [List.filterMap_map, List.filterMap_eq_nil_iff.mpr hmid, hrl0]
  have hpartB : ∀ q ∈ List.range r2.length,
      ((fun p => if occStartAtP prev (c :: rest) p then
          some (p, runLenAt (c :: rest) p) else none) ∘ (fun q => n + q)) q =
        ((fun p => if occStartAtP (some (tw.getLastD c)) r2 p then
          some (p, runLenAt r2 p) else none) q).map
          (fun pl => (pl.1 + n, pl.2)) := by
    intro q _
    have hocc : occStartAtP prev (c :: rest) (n + q) =
        occStartAtP (some (tw.getLastD c)) r2 q := by
      simp only [occStartAtP, hlen, Nat.add_lt_add_iff_left]
      have hg1 : (c :: rest).getD (n + q) ' ' = r2.getD q ' ' := by
        rw [hcs, ← hctwlen]
        exact getD_append_right_own _ _ _ _
      rw [hg1, if_neg (by omega)]
      cases q with
      | zero =>
        have hg2 : (c :: rest).getD (n + 0 - 1) ' ' = tw.getLastD c := by
          rw [show n + 0 - 1 = tw.length from by omega, hcs,
            List.getD_append _ _ _ _ (by simp), getD_last_eq]
        rw [hg2, if_pos rfl]
        simp [atBoundary]
      | succ q2 =>
        rw [if_neg (Nat.succ_ne_zero q2)]
        have hg3 : (c :: rest).getD (n + (q2 + 1) - 1) ' ' =
            r2.getD q2 ' ' := by
          rw [show n + (q2 + 1) - 1 = n + q2 from by omega, hcs, ← hctwlen]
          exact getD_append_right_own _ _ _ _
        rw [hg3]
        simp
    have hrun : runLenAt (c :: rest) (n + q) = runLenAt r2 q := by
      unfold runLenAt
      rw [hcs, ← hctwlen, List.drop_append]
    simp only [Function.comp_apply, hocc, hrun]
    cases occStartAtP (some (tw.getLastD c)) r2 q <;>
      simp [Nat.add_comm]
  show (List.range (c :: rest).length).filterMap
      (fun p => if occStartAtP prev (c :: rest) p then
        some (p, runLenAt (c :: rest) p) else none) = _
  rw [hlen, List.range_add, List.filterMap_append, List.filterMap_map,
    hpartA, List.filterMap_congr hpartB, ← List.map_filterMap]
  rfl

theorem refScan_eq_occ :
    ∀ (fuel : Nat) (cs : Str), cs.length ≤ fuel →
      ∀ (prev : Option Char) (pos lo : Nat), lo ≤ pos →
      selectMatches lo (allTries (wrapTry mRef) prev pos cs) =
        (identOccP prev cs).map
          (fun pl => (pos + pl.1, pl.2, (cs.drop pl.1).take pl.2)) := by
  intro fuel
  induction fuel with
  | zero =>
    intro cs h prev pos lo _
    have hnil : cs = [] := List.length_eq_zero.mp (Nat.le_zero.mp h)
    subst hnil
    simp [allTries, wrapTry, mRef, mIdent, selectMatches, identOccP,
      ite_self]
  | succ fuel ih =>
    intro cs h prev pos lo hlo
    cases cs with
    | nil =>
      simp [allTries, wrapTry, mRef, mIdent, selectMatches, identOccP,
        ite_self]
    | cons c rest =>
      by_cases hgood : atBoundary prev = true ∧ pyIdentStart c = true
      · obtain ⟨hb, hc⟩ := hgood
        have hwc : pyWordChar c = true := word_of_identStart hc
        set tw := rest.takeWhile pyWordChar with htw
        set r2 := rest.dropWhile pyWordChar with hr2
        have hsplit : rest = tw ++ r2 :=
          (List.takeWhile_append_dropWhile _ _).symm
        have htww : ∀ x ∈ tw, pyWordChar x = true := fun x hx =>
          List.mem_takeWhile_imp hx
        have hctwlen : (c :: tw).length = tw.length + 1 := by simp
        have hlr : rest.length = tw.length + r2.length := by
          conv_lhs => rw [hsplit]
          simp
        have hid : mRef (c :: rest) = some (c :: tw, r2) := by
          simp [mRef, mIdent, hc]
        have hmr : wrapTry mRef prev (c :: rest) =
            some (tw.length + 1, c :: tw) := by
          rw [wrapTry, if_pos hb, hid]
          show some ((c :: rest).length - r2.length, c :: tw) = _
          rw [show (c :: rest).length - r2.length = tw.length + 1 from by
            simp only [List.length_cons, hlr]
            omega]
        rw [allTries.eq_2, hmr]
        simp only [List.singleton_append]
        rw [selectMatches.eq_2]
        simp only []
        rw [if_neg (show ¬ pos < lo from by omega)]
        have hskip : allTries (wrapTry mRef) (some c) (pos + 1) rest =
            allTries (wrapTry mRef) (some (tw.getLastD c))
              (pos + 1 + tw.length) r2 := by
          conv_lhs => rw [hsplit]
          exact allTries_skip_words tw c (pos + 1) r2 htww hwc
        rw [hskip]
        have hmax : max (tw.length + 1) 1 = tw.length + 1 := by omega
        simp only [hmax]
        have hfuel : r2.length ≤ fuel := by
          simp only [List.length_cons] at h
          omega
        rw [ih r2 hfuel (some (tw.getLastD c)) (pos + 1 + tw.length)
          (pos + (tw.length + 1)) (by omega)]
        rw [identOccP_cons_good prev c rest hb hc]
        simp only [List.map_cons, List.map_map]
        congr 1
        · simp only [Nat.add_zero, List.drop_zero]
          have htk : (c :: rest).take (tw.length + 1) = c :: tw := by
            rw [show c :: rest = (c :: tw) ++ r2 from by rw [hsplit]; rfl,
              ← hctwlen, List.take_left]
          rw [htk]
        · apply List.map_eq_map_iff.mpr
          intro pl _
          simp only [Function.comp_apply]
          have hdr : (c :: rest).drop (pl.1 + (tw.length + 1)) =
              r2.drop pl.1 := by
            rw [show c :: rest = (c :: tw) ++ r2 from by rw [hsplit]; rfl,
              show pl.1 + (tw.length + 1) = (c :: tw).length + pl.1 from by
                simp
                omega,
              List.drop_append]
          rw [hdr]
          congr 1
          rw [← htw]
          omega
      · have hwt : wrapTry mRef prev (c :: rest) = none := by
          by_cases hby : atBoundary prev = true
          · have hcc : ¬ pyIdentStart c = true := fun hcc =>
              hgood ⟨hby, hcc⟩
            simp [wrapTry, hby, mRef, mIdent, hcc]
          · simp [wrapTry, hby]
        rw [allTries.eq_2, hwt]
        simp only [List.nil_append]
        have hfuel : rest.length ≤ fuel := by
          simp only [List.length_cons] at h
          omega
        rw [ih rest hfuel (some c) (pos + 1) lo (by omega),
          identOccP_cons_bad prev c rest hgood, List.map_map]
        apply List.map_eq_map_iff.mpr
        intro pl _
        simp only [Function.comp_apply]
        rw [List.drop_succ_cons]
        congr 1
        omega

theorem lastNlIdx_append_single (l : Str) (c : Char) :
    lastNlIdx (l ++ [c]) =
      if c = '\n' then some l.length else lastNlIdx l := by
  induction l with
  | nil =>
    by_cases hc : c = '\n' <;> simp [lastNlIdx, hc]
  | cons d rest ih =>
    show (match lastNlIdx (rest ++ [c]) with
          | some i => some (i + 1)
          | none => if d = '\n' then some 0 else none) = _
    rw [ih]
    by_cases hc : c = '\n'
    · rw [if_pos hc, if_pos hc]
      rfl
    · rw [if_neg hc, if_neg hc]
      rfl

theorem lastNlIdx_lt (l : Str) :
    ∀ i, lastNlIdx l = some i → i < l.length := by
  induction l with
  | nil => intro i h; simp [lastNlIdx] at h
  | cons c rest ih =>
    intro i h
    unfold lastNlIdx at h
    cases hr : lastNlIdx rest with
    | some j =>
      rw [hr] at h
      have hj := ih j hr
      simp only [Option.some.injEq] at h
      simp only [List.length_cons]
      omega
    | none =>
      rw [hr] at h
      by_cases hc : c = '\n'
      · rw [if_pos hc] at h
        simp only [Option.some.injEq] at h
        simp only [List.length_cons]
        omega
      · rw [if_neg hc] at h
        exact absurd h (by simp)

theorem colOf_aux (l : Str) :
    (lastNlIdx l = none →
      l.length = (l.reverse.takeWhile (fun c => c ≠ '\n')).length) ∧
    (∀ i, lastNlIdx l = some i →
      l.length - i - 1 =
        (l.reverse.takeWhile (fun c => c ≠ '\n')).length) := by
  induction l using List.reverseRecOn with
  | nil =>
    constructor
    · intro _; rfl
    · intro i h; simp [lastNlIdx] at h
  | append_singleton l c ih =>
    obtain ⟨ih1, ih2⟩ := ih
    rw [lastNlIdx_append_single]
    by_cases hc : c = '\n'
    · subst hc
      rw [if_pos rfl]
      constructor
      · intro h; exact absurd h (by simp)
      · intro i h
        simp only [Option.some.injEq] at h
        subst h
        simp
    · rw [if_neg hc]
      have hrev : (l ++ [c]).reverse.takeWhile (fun c => c ≠ '\n') =
          c :: l.reverse.takeWhile (fun c => c ≠ '\n') := by
        rw [List.reverse_append]
        simp only [List.reverse_singleton, List.singleton_append,
          List.takeWhile_cons]
        rw [if_pos (by simp [hc])]
      rw [hrev]
      constructor
      · intro h
        have h1 := ih1 h
        simp only [List.length_append, List.length_cons]
        simp only [List.length_nil]
        omega
      · intro i h
        have h1 := ih2 i h
        have h2 := lastNlIdx_lt l i h
        simp only [List.length_append, List.length_cons]
        simp only [List.length_nil]
        omega

theorem findPosition_eq (cs : Str) (p : Nat) (h : p ≤ cs.length) :
    findPosition cs p = (specLineOf cs p, specColOf cs p) := by
  have hlen : (cs.take p).length = p := List.length_take_of_le h
  unfold findPosition specLineOf specColOf
  cases hl : lastNlIdx (cs.take p) with
  | none =>
    have h1 := (colOf_aux (cs.take p)).1 hl
    rw [hlen] at h1
    simp only [hl]
    exact congrArg (fun z => ((cs.take p).count '\n', z)) h1
  | some i =>
    have h1 := (colOf_aux (cs.take p)).2 i hl
    rw [hlen] at h1
    simp only [hl]
    exact congrArg (fun z => ((cs.take p).count '\n', z)) h1

theorem mem_identOccP (prev : Option Char) (cs : Str) (pl : Nat × Nat)
    (h : pl ∈ identOccP prev cs) :
    pl.1 < cs.length ∧ pl.2 = runLenAt cs pl.1 := by
  unfold identOccP at h
  obtain ⟨p, hp, hf⟩ := List.mem_filterMap.mp h
  by_cases ho : occStartAtP prev cs p = true
  · rw [if_pos ho] at hf
    cases hf
    exact ⟨List.mem_range.mp hp, rfl⟩
  · rw [if_neg ho] at hf
    exact absurd hf (by simp)

theorem parseReferences_eq_spec (cs : Str) :
    parseReferences cs = specReferences cs := by
  unfold parseReferences specReferences identOccurrences
  rw [show scanP mRef cs = (identOccP none cs).map
        (fun pl => (0 + pl.1, pl.2, (cs.drop pl.1).take pl.2)) from
      refScan_eq_occ cs.length cs le_rfl none 0 0 le_rfl]
  rw [List.filterMap_map]
  apply List.filterMap_congr
  intro pl hpl
  obtain ⟨h1, h2⟩ := mem_identOccP none cs pl hpl
  have hlen2 : pl.2 ≤ (cs.drop pl.1).length := by
    rw [h2]
    exact (List.takeWhile_sublist _).length_le
  have htk : ((cs.drop pl.1).take pl.2).length = pl.2 :=
    List.length_take_of_le hlen2
  simp only [Function.comp_apply, Nat.zero_add]
  by_cases hkw : pyUpper ((cs.drop pl.1).take pl.2) ∈ KEYWORDS
  · rw [if_pos hkw, if_pos hkw]
  · rw [if_neg hkw, if_neg hkw]
    rw [findPosition_eq cs pl.1 (Nat.le_of_lt h1)]
    simp [htk]

/-! ### Stable sort lemmas for the outline -/

theorem mem_insertByLine (x a : DocSym) :
    ∀ ys, a ∈ insertByLine x ys ↔ a = x ∨ a ∈ ys := by
  intro ys
  induction ys with
  | nil => simp [insertByLine]
  | cons y ys ih =>
    rw [insertByLine]
    split_ifs with h
    · rw [List.mem_cons, ih, List.mem_cons]
      tauto
    · simp [List.mem_cons]

theorem insertByLine_pairwise (x : DocSym) :
    ∀ ys, List.Pairwise (fun a b => a.line ≤ b.line) ys →
      List.Pairwise (fun a b => a.line ≤ b.line) (insertByLine x ys) := by
  intro ys
  induction ys with
  | nil => simp [insertByLine]
  | cons y ys ih =>
    intro h
    rw [List.pairwise_cons] at h
    rw [insertByLine]
    split_ifs with hxy
    · rw [List.pairwise_cons]
      refine ⟨?_, ih h.2⟩
      intro a ha
      rw [mem_insertByLine] at ha
      rcases ha with rfl | ha
      · exact hxy
      · exact h.1 a ha
    · rw [List.pairwise_cons]
      refine ⟨?_, List.pairwise_cons.mpr h⟩
      intro a ha
      simp at ha
      rcases ha with rfl | ha
      · omega
      · have := h.1 a ha
        omega

theorem filter_insertByLine (x : DocSym) (l : Nat) :
    ∀ ys, List.Pairwise (fun a b => a.line ≤ b.line) ys →
      (insertByLine x ys).filter (fun d => d.line = l) =
        (if x.line = l
        then ys.filter (fun d => d.line = l) ++ [x]
        else ys.filter (fun d => d.line = l)) := by
  intro ys
  induction ys with
  | nil =>
    intro _
    rw [insertByLine]
    by_cases hx : x.line = l <;> simp [List.filter_cons, hx]
  | cons y ys ih =>
    intro h
    rw [List.pairwise_cons] at h
    rw [insertByLine]
    by_cases hxy : y.line ≤ x.line
    · rw [if_pos hxy]
      have hih := ih h.2
      by_cases hx : x.line = l <;> by_cases hy : y.line = l <;>
        simp [List.filter_cons, hx, hy, hih]
    · rw [if_neg hxy]
      by_cases hx : x.line = l
      · have hfil :
            List.filter (fun d => decide (d.line = l)) (y :: ys) = [] := by
          rw [List.filter_eq_nil_iff]
          intro a ha
          simp only [decide_eq_true_eq]
          have hy2 : y.line ≤ a.line := by
            rcases List.mem_cons.mp ha with rfl | ha2
            · exact le_refl _
            · exact h.1 a ha2
          omega
        simp [List.filter_cons, hx, hfil]
      · simp [List.filter_cons, hx]

theorem insertByLine_perm (x : DocSym) :
    ∀ ys, (insertByLine x ys).Perm (x :: ys) := by
  intro ys
  induction ys with
  | nil => rfl
  | cons y ys ih =>
    rw [insertByLine]
    split_ifs with h
    · exact ((ih.cons y).trans (List.Perm.swap x y ys))
    · rfl

theorem pySortFold_lemma :
    ∀ (xs acc : List DocSym),
      List.Pairwise (fun a b => a.line ≤ b.line) acc →
      (List.Pairwise (fun a b => a.line ≤ b.line)
        (xs.foldl (fun a x => insertByLine x a) acc) ∧
      (∀ l, (xs.foldl (fun a x => insertByLine x a) acc).filter
          (fun d => d.line = l) =
        acc.filter (fun d => d.line = l) ++ xs.filter (fun d => d.line = l)) ∧
      (xs.foldl (fun a x => insertByLine x a) acc).Perm (acc ++ xs)) := by
  intro xs
  induction xs with
  | nil =>
    intro acc h
    refine ⟨h, fun l => by simp, by simp⟩
  | cons x xs ih =>
    intro acc h
    have hacc2 := insertByLine_pairwise x acc h
    obtain ⟨hs, hf, hp⟩ := ih (insertByLine x acc) hacc2
    refine ⟨hs, ?_, ?_⟩
    · intro l
      rw [List.foldl_cons] at *
      rw [hf l, filter_insertByLine x l acc h, List.filter_cons]
      by_cases hx : x.line = l <;> simp [hx]
    · rw [List.foldl_cons]
      refine hp.trans ?_
      exact ((insertByLine_perm x acc).append_right xs).trans
        List.perm_middle.symm

/-! ### Claim C1 — last write wins across recognizer passes -/

/-- C1: if a canonical name `n` is matched by more than one recognizer pass
(indices 0–12 in the fixed order program, procedure, function, task,
compool, scalar-, array-, constant-, vector-, matrix-declare, structure,
replace, label) on the normalized text, then the symbol retained after
`parse` is the one produced by the last matching pass — the label pass
(index 12) excepted, which never overwrites an entry already present.
Formally: if `m` is the last matching non-label pass and `v` the symbol of
its last match for `n`, the table maps `n` to `v` (the label pass, whether
it matched `n` or not, cannot displace it). -/
theorem c1_last_write_wins (st : ParserState) (t n : Str) (i j m : Nat)
    (v : Symbol) (_hij : i ≠ j)
    (_hi : passMatchesName (normalizedOf t) i n)
    (_hj : passMatchesName (normalizedOf t) j n)
    (hm : m < 12)
    (hmv : lastEntryFor ((passEntries (normalizedOf t)).getD m []) n = some v)
    (hlast : ∀ k, m < k → k < 12 → ¬ passMatchesName (normalizedOf t) k n) :
    lookupSym (parse st t).symbols n = some v := by
  have hsym : (parse st t).symbols = buildSymbols (normalizedOf t) := rfl
  rw [hsym]
  unfold buildSymbols
  apply lookupSym_label_fold
  rw [foldl_applyEntries_flatten, lookupSym_applyEntries]
  have hlen : (nonLabelEntries (normalizedOf t)).length = 12 := by
    simp [nonLabelEntries]
  have hpass : ∀ k, k < 12 → (passEntries (normalizedOf t)).getD k [] =
      (nonLabelEntries (normalizedOf t)).getD k [] := by
    intro k hk
    unfold passEntries
    exact List.getD_append _ _ _ _ (by rw [hlen]; exact hk)
  have hflat :
      lastEntryFor (nonLabelEntries (normalizedOf t)).flatten n = some v := by
    apply lastEntryFor_flatten_at _ m n v (by rw [hlen]; exact hm)
    · rw [← hpass m hm]
      exact hmv
    · intro k hk1 hk2
      have h2 := hlast k hk1 (by rw [hlen] at hk2; exact hk2)
      rw [← hpass k (by rw [hlen] at hk2; exact hk2)]
      simp only [passMatchesName, ne_eq, not_not] at h2
      exact h2
  rw [hflat]

/-- Witness input for C1: the task pass (index 3) and the structure pass
(index 10) both match `A`; the label pass does not (the lookahead sees
`TASK`). -/
def c1Text : Str := ("A: TASK; DECLARE A STRUCTURE;").data

theorem c1_last_write_wins_wit :
    lookupSym (parse initState c1Text).symbols [('A')] =
      some { name := [('A')], kind := SymbolKind.structureK,
             data_type := ("STRUCTURE").data, line := 0, column := 9,
             documentation := ("Structure type").data } :=
  c1_last_write_wins initState c1Text [('A')] 3 10 10
    { name := [('A')], kind := SymbolKind.structureK,
      data_type := ("STRUCTURE").data, line := 0, column := 9,
      documentation := ("Structure type").data }
    (by decide) (by decide) (by decide) (by decide) (by decide)
    (by
      intro k h1 h2
      have hk : k = 11 := by omega
      subst hk
      decide)

/-! ### Claim C2 — queries without a token under the cursor -/

/-- C2: for every parsed text and cursor, if no identifier token of the
cursor line has a span containing the column (`start ≤ col ≤ end`, the
source's inclusive test) — vacuously so when the line is beyond the known
line count — then `hover` and `definition` return `none` and
`referencesAt` returns `[]`.  All three are total functions, so no failure
signal is possible. -/
theorem c2_queries_empty_without_token (st0 : ParserState) (t : Str)
    (line col : Nat)
    (h : ∀ m ∈ scanP mRef ((parse st0 t).lines.getD line []),
      ¬ (m.1 ≤ col ∧ col ≤ m.1 + m.2.1)) :
    get_hover (parse st0 t) line col = none ∧
    get_definition (parse st0 t) line col = none ∧
    get_references_at (parse st0 t) line col = [] := by
  cases hl : (parse st0 t).lines[line]? with
  | none =>
    refine ⟨?_, ?_, ?_⟩ <;>
      simp [get_hover, get_definition, get_references_at, hl]
  | some lt =>
    have hD : (parse st0 t).lines.getD line [] = lt := by
      rw [List.getD_eq_getElem?_getD, hl]
      rfl
    rw [hD] at h
    have htok : tokenAt lt col = none := by
      unfold tokenAt
      rw [List.find?_eq_none.mpr]
      · rfl
      · intro m hm
        have h2 := h m hm
        simp only [Bool.and_eq_true, decide_eq_true_eq]
        exact fun hc => h2 ⟨hc.1, hc.2⟩
    refine ⟨?_, ?_, ?_⟩ <;>
      simp [get_hover, get_definition, get_references_at, hl, htok]

/-- Witness state for C2. -/
def c2Text : Str := ("X: PROGRAM;").data

theorem c2_queries_empty_without_token_wit :
    get_hover (parse initState c2Text) 0 50 = none ∧
    get_definition (parse initState c2Text) 0 50 = none ∧
    get_references_at (parse initState c2Text) 0 50 = [] :=
  c2_queries_empty_without_token initState c2Text 0 50 (by decide)

/-! ### Claim C3 — reference completeness -/

/-- C3: for every text and any prior state, the reference list after parse
contains exactly one Reference for each maximal identifier-shaped
occurrence (letter/underscore start, word-character continuation) in the
normalized text whose upper-cased form is not a keyword — the declaring
occurrences and never-declared identifiers included — each carrying the
canonical name, its line and start column in the normalized text, and end
column equal to start column plus the token length. -/
theorem c3_reference_completeness (st : ParserState) (t : Str) :
    (parse st t).references = specReferences (normalizedOf t) :=
  parseReferences_eq_spec (normalizedOf t)

/-- Witness for C3 evaluated on a concrete text: the scenario input
produces exactly the expected three references. -/
theorem c3_reference_completeness_wit :
    (parse initState (("X: PROGRAM;\nY = X;").data)).references =
      specReferences (normalizedOf (("X: PROGRAM;\nY = X;").data)) ∧
    (parse initState (("X: PROGRAM;\nY = X;").data)).references =
      [{ name := ("X").data, line := 0, column := 0, end_column := 1 },
       { name := ("Y").data, line := 1, column := 0, end_column := 1 },
       { name := ("X").data, line := 1, column := 4, end_column := 5 }] :=
  ⟨c3_reference_completeness initState (("X: PROGRAM;\nY = X;").data),
   by decide⟩

/-! ### Claim C4 — determinism and idempotence of `parse` -/

/-- C4: the state after `parse(T)` is a function of T alone — the previous
state (whatever text produced it) is never read, so two parses of the same
text from any two states agree, and re-parsing after parsing any other
text gives the same final state as a single parse. -/
theorem c4_parse_deterministic_idempotent (s1 s2 : ParserState) (t u : Str) :
    parse s1 t = parse s2 t ∧ parse (parse s1 u) t = parse s1 t :=
  ⟨rfl, rfl⟩

/-! ### Claim C8 — the diagnostic list is always empty -/

/-- C8: after every call to `parse`, on any input text and from any prior
state, the diagnostics accessor returns the empty list (no extraction pass
ever appends a `Diagnostic`). -/
theorem c8_diagnostics_always_empty (st : ParserState) (t : Str) :
    get_diagnostics (parse st t) = [] := rfl

/-! ### Claim C10 — the NAV_LOOP scenario -/

/-- The four-line scenario input of the specification. -/
def c10Text : Str := ("NAV_LOOP:\nDO WHILE TRUE;\nGO TO NAV_LOOP;\nEND;").data

/-- C10: on the NAV_LOOP scenario, parse records the symbol `NAV_LOOP` as a
label declared at line 0, and `referencesAt` at the `NAV_LOOP` occurrence
of the `GO TO` line (line 2, column 6) returns exactly two references, one
at line 0 and one at line 2. -/
theorem c10_nav_loop_scenario :
    (lookupSym (parse initState c10Text).symbols (("NAV_LOOP").data)).map
        Symbol.kind = some SymbolKind.label ∧
    (lookupSym (parse initState c10Text).symbols (("NAV_LOOP").data)).map
        Symbol.line = some 0 ∧
    get_references_at (parse initState c10Text) 2 6 =
      [{ line := 0, column := 0, end_column := 8 },
       { line := 2, column := 6, end_column := 14 }] := by
  decide

/-! ### Claim C7 — degenerate inputs -/

/-- C7 counterexample: the single-character text `"A"` parses to an empty
symbol table and empty diagnostics, but the reference list is NOT empty —
the lone letter is itself a non-keyword identifier occurrence and is
recorded as a reference, contradicting "produces empty collections". -/
theorem c7_counterexample :
    (parse initState [('A')]).references =
      [{ name := [('A')], line := 0, column := 0, end_column := 1,
         context := [] }] ∧
    ¬ (parse initState [('A')]).references = [] := by
  decide

/-- C7 (amended): `parse` is total, and on the degenerate inputs the claim
lists it produces: for the empty text, an empty symbol table, reference
list and diagnostic list; for every single-character text, an empty symbol
table and diagnostic list, and a reference list that is empty unless the
character is an identifier-start character surviving preprocessing (first
character not `E`/`S`/`M`/`C` case-insensitively), in which case it holds
exactly one reference for that character — so "empty collections" fails
only for the reference list on identifier characters. -/
theorem c7_degenerate_inputs (st : ParserState) (c : Char) :
    (parse st []).symbols = [] ∧ (parse st []).references = [] ∧
    (parse st []).diagnostics = [] ∧
    (parse st [c]).symbols = [] ∧ (parse st [c]).diagnostics = [] ∧
    ((parse st [c]).references =
      if pyIdentStart c = true ∧
          ¬ (c.toUpper = 'E' ∨ c.toUpper = 'S' ∨ c.toUpper = 'M' ∨
            c.toUpper = 'C')
      then [{ name := [c.toUpper], line := 0, column := 0, end_column := 1 }]
      else []) := by
  have hsym : buildSymbols (normalizedOf [c]) = [] := by
    unfold normalizedOf
    rw [preprocess_single]
    split_ifs with h1 h2 h3
    · rfl
    · rfl
    · rfl
    · show buildSymbols (removeComments [c]) = []
      have hrc : removeComments [c] = [c] := rfl
      rw [hrc]
      exact buildSymbols_single c
  have href : parseReferences (removeComments (preprocessMultiline [c])) =
      (if pyIdentStart c = true ∧
          ¬ (c.toUpper = 'E' ∨ c.toUpper = 'S' ∨ c.toUpper = 'M' ∨
            c.toUpper = 'C')
      then [{ name := [c.toUpper], line := 0, column := 0, end_column := 1 }]
      else []) := by
    rw [preprocess_single]
    by_cases h1 : c.toUpper = 'E' ∨ c.toUpper = 'S'
    · rw [if_pos h1, if_neg (fun hc => hc.2 (by tauto))]
      rfl
    · rw [if_neg h1]
      by_cases h2 : c.toUpper = 'M'
      · rw [if_pos h2, if_neg (fun hc => hc.2 (by tauto))]
        rfl
      · rw [if_neg h2]
        by_cases h3 : c.toUpper = 'C'
        · rw [if_pos h3, if_neg (fun hc => hc.2 (by tauto))]
          rfl
        · rw [if_neg h3]
          have hrc : removeComments [c] = [c] := rfl
          rw [hrc, parseReferences_single]
          by_cases h4 : pyIdentStart c = true
          · rw [if_pos h4, if_pos ⟨h4, by tauto⟩]
          · rw [if_neg (by simpa using h4), if_neg (fun hc => h4 hc.1)]
  exact ⟨rfl, rfl, rfl, hsym, rfl, href⟩

/-! ### Claim C9 — document symbol ordering -/

/-- Input whose table holds, in dict order, `A` (overwritten by the late
structure pass, 11th) before `B` (written by the first, program pass),
both declared on line 0. -/
def c9Text : Str := ("A: PROGRAM; B: PROGRAM; DECLARE A STRUCTURE;").data

/-- C9 counterexample: on `c9Text` both outline entries are on line 0, yet
the entry retained by the 11th (structure) pass precedes the entry
retained by the 1st (program) pass — the tie is NOT broken by
extraction-pass order of the retained symbols.  (Python dicts keep an
overwritten key at its original position, so the tie-break is first
insertion order.) -/
theorem c9_counterexample :
    (get_document_symbols (parse initState c9Text)).map DocSym.kind =
      [SymbolKind.structureK, SymbolKind.program] ∧
    (get_document_symbols (parse initState c9Text)).map DocSym.line =
      [0, 0] := by
  decide

/-- C9 (amended): `documentSymbols()` returns one entry per symbol of the
table (a permutation of the table's entry list), ordered ascending by
declaration line; entries sharing a line keep the order of the table, i.e.
the order the names were FIRST inserted (a Python dict keeps an
overwritten key at its original position), not the extraction-pass order
of the retained symbols. -/
theorem c9_document_symbols_sorted (st : ParserState) :
    List.Pairwise (fun a b => a.line ≤ b.line) (get_document_symbols st) ∧
    (get_document_symbols st).Perm
      (st.symbols.map (fun e =>
        ({ name := e.2.name, kind := e.2.kind, detail := e.2.data_type,
           line := e.2.line, column := e.2.column } : DocSym))) ∧
    ∀ l, (get_document_symbols st).filter (fun d => d.line = l) =
      (st.symbols.map (fun e =>
        ({ name := e.2.name, kind := e.2.kind, detail := e.2.data_type,
           line := e.2.line, column := e.2.column } : DocSym))).filter
        (fun d => d.line = l) := by
  obtain ⟨hs, hf, hp⟩ := pySortFold_lemma
    (st.symbols.map (fun e =>
      ({ name := e.2.name, kind := e.2.kind, detail := e.2.data_type,
         line := e.2.line, column := e.2.column } : DocSym))) []
    List.Pairwise.nil
  exact ⟨hs, by simpa using hp, fun l => by simpa using hf l⟩

/-! ### Claim C6 — comment stripping -/

/-- A text with two comments on one line and plain text between them. -/
def c6Text : Str := ("a/*x*/b/*y*/c").data

/-- C6 counterexample: the source's comment stripping keeps the text `b`
between two comments on one line (the regex `/\*.*?\*/` is non-greedy), so
it differs from the claim's "matching greedily" reading, under which one
match would span from the first `/*` to the last `*/` and swallow `b`. -/
theorem c6_counterexample :
    removeComments c6Text = ("abc").data ∧
    removeCommentsGreedy c6Text = ("ac").data ∧
    ¬ removeComments c6Text = removeCommentsGreedy c6Text := by
  decide

/-- C6 (amended): the comment-stripping pass equals the spec-side
non-greedy stripper — every `/* ... */` block comment is removed, each one
ending at the NEAREST following `*/`, matching across line boundaries and
without nesting; all text outside such comments (including text between
two separate comments on one line) is unchanged, and an opening `/*` with
no later `*/` is left in place. -/
theorem c6_remove_comments_nongreedy (cs : Str) :
    removeComments cs = specRemoveComments cs :=
  removeComments_eq_specAux cs.length cs (le_refl _)

end HalsLsp
